import Mathlib

/-!
Verification development for plenti's `cmd/build/gopack.go`, the
dependency-resolution stage of the static-site build pipeline.

Modelling conventions (shallow embedding):
* Go strings / byte slices are modelled as `List Char` (`Str`).
* The filesystem is an explicit structure: an association list of file
  paths to contents, a list of directories (directories implied by file
  paths are also recognised), and a list of paths whose `stat` fails
  with an error other than non-existence (e.g. a permission error).
* `ioutil.ReadFile` returns `none` on any path that is not a readable
  file; `ioutil.WriteFile` in `runPack` always targets a path that was
  successfully read earlier in the same call, so it is modelled as an
  in-place update; `os.Create` inside `copyNpmModule` may create new
  files and is modelled separately.
* Go's regexp matching (leftmost-first, greedy) for the four patterns in
  gopack.go is modelled by direct character scanners with the same
  leftmost-first greedy behaviour on the statement shapes that occur in
  module files (single-line and brace-multiline import/export forms).
* A Go runtime panic (out-of-range slice, nil interface dereference) is
  modelled as the distinguished result `panicked`; running out of the
  explicit recursion fuel is the distinguished result `fuelOut`.
* `runPack`'s unbounded Go recursion is modelled with explicit fuel; the
  termination theorem below shows that fuel exceeding the number of
  not-yet-visited filesystem paths is never exhausted.
-/

namespace Gopack

abbrev Str : Type := List Char

/-- Literal ".svelte", the foreign component extension. -/
def svelteLit : Str := (".svelte").toList

/-- Literal ".js", the plain script extension. -/
def jsLit : Str := (".js").toList

/-- Literal ".mjs", the secondary module-file extension. -/
def mjsLit : Str := (".mjs").toList

/-- Literal "node_modules", the dependency cache root (as used by
`strings.Replace(modulePath, "node_modules", "", 1)` on line 231). -/
def nmLit : Str := ("node_modules").toList

/-- Substring test, mirroring Go `strings.Contains`. -/
def hasSub (s pat : Str) : Bool :=
  match s with
  | [] => pat.isEmpty
  | c :: rest => pat.isPrefixOf (c :: rest) || hasSub rest pat

/-- Mirrors Go `strings.Replace(s, pat, r, 1)` / `bytes.Replace(s, pat, r, 1)`:
replace the first occurrence of `pat` by `r`; with an empty pattern Go
inserts `r` once at the start. -/
def replaceFirst (s pat r : Str) : Str :=
  if pat.isEmpty then r ++ s
  else
    match s with
    | [] => []
    | c :: rest =>
      if pat.isPrefixOf (c :: rest) then r ++ (c :: rest).drop pat.length
      else c :: replaceFirst rest pat r

/-- Fuel-driven worker for `replaceAll`; the fuel starts at the string
length, and every step consumes at least one character. -/
def replaceAllAux : Nat → Str → Str → Str → Str
  | 0, _, _, _ => []
  | _ + 1, [], _, _ => []
  | fuel + 1, c :: rest, pat, r =>
    if pat.isPrefixOf (c :: rest) then r ++ replaceAllAux fuel ((c :: rest).drop pat.length) pat r
    else c :: replaceAllAux fuel rest pat r

/-- Mirrors Go `bytes.ReplaceAll(s, pat, r)` for a non-empty pattern:
replaces every non-overlapping occurrence left to right.  (All call
sites in gopack.go pass a non-empty pattern, a full matched statement.) -/
def replaceAll (s pat r : Str) : Str :=
  if pat.isEmpty then s else replaceAllAux s.length s pat r

/-- Split a character list at every occurrence of `sep` (the separators are
dropped, empty segments kept), like Go `strings.Split`. -/
def splitOnChar (sep : Char) (s : Str) : List Str :=
  match s with
  | [] => [[]]
  | c :: rest =>
    let r := splitOnChar sep rest
    if c = sep then [] :: r
    else
      match r with
      | [] => [[c]]
      | h :: t => (c :: h) :: t

/-- Index of the last occurrence of `c` in `s`. -/
def lastIdxOf (c : Char) (s : Str) : Option Nat :=
  match s.reverse.findIdx? (· = c) with
  | none => none
  | some j => some (s.length - 1 - j)

/-- Helper scanning a reversed path for `filepath.Ext`. -/
def extAux : Str → Str → Str
  | [], _ => []
  | c :: rest, acc =>
    if c = '/' then []
    else if c = '.' then '.' :: acc
    else extAux rest (c :: acc)

/-- Mirrors Go `filepath.Ext`: the suffix beginning at the final dot of the
final path element, empty if there is none. -/
def fpExt (p : Str) : Str := extAux p.reverse []

/-- One step of the lexical path-cleaning stack machine of Go `path.Clean`. -/
def cleanComp (rooted : Bool) (stack : List Str) (c : Str) : List Str :=
  if c = [] || c = ['.'] then stack
  else if c = ['.', '.'] then
    match stack with
    | [] => if rooted then [] else [c]
    | top :: rest => if top = ['.', '.'] then c :: top :: rest else rest
  else c :: stack

/-- Mirrors Go `path.Clean` (lexical cleaning: drop `.` and empty elements,
resolve `..`, keep rootedness; empty path cleans to "."). -/
def pathClean (p : Str) : Str :=
  if p = [] then ['.']
  else
    let rooted := p.head? = some '/'
    let comps := splitOnChar '/' p
    let out := (comps.foldl (cleanComp rooted) []).reverse
    let s := List.intercalate ['/'] out
    if rooted then '/' :: s
    else if s = [] then ['.'] else s

/-- Mirrors Go `path.Dir`: everything up to the final slash, cleaned; "." if
there is no slash. -/
def pathDir (p : Str) : Str :=
  match lastIdxOf '/' p with
  | none => ['.']
  | some i => pathClean (p.take (i + 1))

/-- Strip the common leading components of two component lists. -/
def stripCommon : List Str → List Str → List Str × List Str
  | a :: as, b :: bs => if a = b then stripCommon as bs else (a :: as, b :: bs)
  | as, bs => (as, bs)

/-- Mirrors Go `filepath.Rel(base, targ)` on unix paths: `none` models the
error return (one path absolute and the other relative, or the base
escaping through `..`); on error Go also returns the empty string, which
the caller of line 122 stores into `foundPath`. -/
def filepathRel (basepath targpath : Str) : Option Str :=
  let base := pathClean basepath
  let targ := pathClean targpath
  if base = targ then some ['.']
  else
    let baseSlashed := base.head? = some '/'
    let targSlashed := targ.head? = some '/'
    if baseSlashed ≠ targSlashed then none
    else
      let bC := if base = ['.'] then [] else splitOnChar '/' base
      let tC := splitOnChar '/' targ
      let pr := stripCommon bC tC
      match pr.1 with
      | [] => some (List.intercalate ['/'] pr.2)
      | b0 :: brest =>
        if b0 = ['.', '.'] then none
        else some (List.intercalate ['/'] ((b0 :: brest).map (fun _ => ['.', '.']) ++ pr.2))

/-- The single-quote and double-quote characters (the cutset of
`strings.Trim(pathStr, "'\"")` on line 90 and the quote class of the
path regexp on line 36). -/
def isQuoteCh (c : Char) : Bool := c = Char.ofNat 39 || c = Char.ofNat 34

/-- Mirrors `strings.Trim(s, "'\"")`: strip leading and trailing quote
characters. -/
def trimQuotes (s : Str) : Str :=
  ((s.dropWhile isQuoteCh).reverse.dropWhile isQuoteCh).reverse

/-- Index of the last quote character in a line. -/
def lastQIdx (s : Str) : Option Nat :=
  match s.reverse.findIdx? isQuoteCh with
  | none => none
  | some j => some (s.length - 1 - j)

/-- The leftmost-first greedy match of `rePath` = `(?:'|").*(?:'|")` inside a
single line: from the first quote to the last quote of the line, provided
they are distinct.  Returns `(prefix, match, suffix)`. -/
def rePathFindLine (line : Str) : Option (Str × Str × Str) :=
  match line.findIdx? isQuoteCh, lastQIdx line with
  | some i, some j =>
    if i < j then some (line.take i, (line.drop i).take (j + 1 - i), line.drop (j + 1))
    else none
  | _, _ => none

/-- Mirrors `rePath.Find`: the first match over the whole text (`.` does not
cross newlines, so matches live inside single lines). -/
def rePathFind (s : Str) : Option Str :=
  ((splitOnChar '\n' s).filterMap (fun l => (rePathFindLine l).map (fun x => x.2.1))).head?

/-- Mirrors `rePath.ReplaceAll(s, r)` (no `$` expansions occur in the
replacements gopack builds): each line's single greedy match is replaced. -/
def rePathReplaceAll (s r : Str) : Str :=
  List.intercalate ['\n'] ((splitOnChar '\n' s).map (fun l =>
    match rePathFindLine l with
    | some x => x.1 ++ r ++ x.2.2
    | none => l))

/-- Literal "import(". -/
def dynLit : Str := ("import(").toList

/-- Literal "import". -/
def importLit : Str := ("import").toList

/-- Literal "export". -/
def exportLit : Str := ("export").toList

/-- Literal "from". -/
def fromLit : Str := ("from").toList

/-- Whitespace class of the regexp `\s` (newline handled by the line
structure of the scanners). -/
def isWsCh (c : Char) : Bool := c = ' ' || c = '\t' || c = '\r'

/-- For the tail after `import(` plus one quote: the greedy end of
`reDynamicImport` = `import\((?:'|").*(?:'|")\)`: the last position `j`
on the current line with a quote at `j` followed by `)`. -/
def dynFindEnd (tail : Str) : Option Nat :=
  let region := tail.takeWhile (· ≠ '\n')
  (List.range region.length).foldl (fun acc j =>
    if j + 1 < region.length ∧ isQuoteCh (region.getD j ' ') ∧ region.getD (j + 1) ' ' = ')'
    then some j else acc) none

/-- Scanner for `reDynamicImport.FindAll`: leftmost-first, greedy to the
last quote-paren on the line, continuing after each match. -/
def findDynAux : Nat → Str → List Str
  | 0, _ => []
  | _ + 1, [] => []
  | fuel + 1, c :: rest =>
    if dynLit.isPrefixOf (c :: rest) then
      match (c :: rest).drop 7 with
      | q :: tail =>
        if isQuoteCh q then
          match dynFindEnd tail with
          | some j => (dynLit ++ q :: tail.take (j + 2)) :: findDynAux fuel (tail.drop (j + 2))
          | none => findDynAux fuel rest
        else findDynAux fuel rest
      | [] => findDynAux fuel rest
    else findDynAux fuel rest

/-- All matches of `reDynamicImport` in the text (line 69). -/
def findDynamicImports (s : Str) : List Str := findDynAux s.length s

/-- Mirrors line 72: inside a dynamic import match, change the first
".svelte" occurrence to ".js". -/
def fixDynamicImport (d : Str) : Str := replaceFirst d svelteLit jsLit

/-- Mirrors lines 69-75: for each dynamic import match, substitute the
fixed match back into the content (`bytes.Replace(..., 1)` twice). -/
def applyDynamicFix (c : Str) : Str :=
  (findDynamicImports c).foldl (fun acc d => replaceFirst acc d (fixDynamicImport d)) c

/-- Does the single-line branch `.*from(.*);` of the static statement
regexps match somewhere in this line segment: some "from" occurrence with
a ";" at least four characters later. -/
def hasFromSemi (s : Str) : Bool :=
  (List.range s.length).any (fun i =>
    fromLit.isPrefixOf (s.drop i) && (s.drop (i + 4)).any (· = ';'))

/-- End index (inclusive) of the greedy single-line branch: the last ";" of
the segment. -/
def lastSemiEnd (s : Str) : Nat := (lastIdxOf ';' s).getD 0

/-- Does a line close a brace-multiline import/export, i.e. match
`\}(\s)from(.*);`: a closing brace, one whitespace, literally "from", and a
";" later on the line. -/
def braceLineOk (l : Str) : Bool :=
  match l with
  | b :: w :: rest =>
    b = Char.ofNat 125 && isWsCh w && fromLit.isPrefixOf rest && (rest.drop 4).any (· = ';')
  | _ => false

/-- Index of the last element of `l` satisfying `p`. -/
def lastIdxWhere (p : α → Bool) (l : List α) : Option Nat :=
  match l.reverse.findIdx? p with
  | none => none
  | some j => some (l.length - 1 - j)

/-- Reassemble a multiline match: the import line, the consumed full lines,
and the closing line up to its last ";". -/
def buildMulti (l0 : Str) (mid : List Str) (lk : Str) : Str :=
  l0 ++ '\n' :: mid.foldr (fun m acc => m ++ '\n' :: acc) (lk.take (lastSemiEnd lk + 1))

/-- Scanner for `reStaticImportGoPk.FindAll` over the line list:
`(?m)^import(\s)(.*from(.*);|((.*\n){0,})\}(\s)from(.*);)` — a line
starting with "import" plus one whitespace; the single-line alternative is
preferred; otherwise the greedy multiline alternative runs to the last
brace-from line of the remaining text. -/
def staticImpAux : Nat → List Str → List Str
  | 0, _ => []
  | _ + 1, [] => []
  | fuel + 1, line :: rest =>
    if importLit.isPrefixOf line ∧ isWsCh (line.getD 6 'x') then
      let afterWs := line.drop 7
      if hasFromSemi afterWs then
        line.take (7 + lastSemiEnd afterWs + 1) :: staticImpAux fuel rest
      else
        match lastIdxWhere braceLineOk rest with
        | some k => buildMulti line (rest.take k) (rest.getD k []) :: staticImpAux fuel (rest.drop (k + 1))
        | none => staticImpAux fuel rest
    else staticImpAux fuel rest

/-- All matches of `reStaticImportGoPk` (line 78). -/
def findStaticImports (s : Str) : List Str :=
  staticImpAux (splitOnChar '\n' s).length (splitOnChar '\n' s)

/-- One match attempt of `reStaticExportGoPk` at a position where "export"
plus one whitespace has just been recognised; returns the match and the
remaining text to continue scanning from. -/
def expTryAt (w : Char) (afterWs : Str) : Option (Str × Str) :=
  let region := afterWs.takeWhile (· ≠ '\n')
  if hasFromSemi region then
    some (exportLit ++ w :: region.take (lastSemiEnd region + 1),
      afterWs.drop (lastSemiEnd region + 1))
  else
    let ls := splitOnChar '\n' afterWs
    match lastIdxWhere braceLineOk (ls.drop 1) with
    | some k0 =>
      let k := k0 + 1
      let lk := ls.getD k []
      some (exportLit ++ w :: buildMulti (ls.getD 0 []) ((ls.drop 1).take k0) lk,
        lk.drop (lastSemiEnd lk + 1) ++ (ls.drop (k + 1)).foldl (fun a l => a ++ '\n' :: l) [])
    | none => none

/-- Scanner for `reStaticExportGoPk.FindAll`:
`export(\s)(.*from(.*);|((.*\n){0,})\}(\s)from(.*);)` — not anchored, so
"export" may start anywhere in the text. -/
def staticExpAux : Nat → Str → List Str
  | 0, _ => []
  | _ + 1, [] => []
  | fuel + 1, c :: rest =>
    if exportLit.isPrefixOf (c :: rest) ∧ isWsCh ((c :: rest).getD 6 'x') then
      match expTryAt ((c :: rest).getD 6 'x') ((c :: rest).drop 7) with
      | some m => m.1 :: staticExpAux fuel m.2
      | none => staticExpAux fuel rest
    else staticExpAux fuel rest

/-- All matches of `reStaticExportGoPk` (line 80). -/
def findStaticExports (s : Str) : List Str := staticExpAux s.length s

/-! ## Filesystem model -/

/-- The filesystem: file paths with contents, explicitly existing
directories (directories implied by deeper paths are also recognised),
and paths whose `stat` fails with an error other than non-existence. -/
structure FS where
  files : List (Str × Str)
  dirs : List Str
  errPaths : List Str
deriving DecidableEq, Repr

/-- Result of `os.Stat`. -/
inductive StatRes where
  | file | dir | errNotExist | errOther
deriving DecidableEq, Repr

/-- All file paths. -/
def fileKeys (fs : FS) : List Str := fs.files.map Prod.fst

/-- First-match association lookup. -/
def lookupL : List (Str × Str) → Str → Option Str
  | [], _ => none
  | e :: rest, p => if e.1 = p then some e.2 else lookupL rest p

/-- Content of a file path, if present. -/
def lookupFile (fs : FS) (p : Str) : Option Str := lookupL fs.files p

/-- Is `p` a directory: explicitly created, an ancestor of an explicit
directory, or an ancestor of an existing file. -/
def isDirFS (fs : FS) (p : Str) : Bool :=
  fs.dirs.any (fun d => d = p || (p ++ ['/']).isPrefixOf d) ||
  (fileKeys fs).any (fun q => (p ++ ['/']).isPrefixOf q)

/-- Model of `os.Stat`. -/
def osStat (fs : FS) (p : Str) : StatRes :=
  if p ∈ fs.errPaths then .errOther
  else if (lookupFile fs p).isSome then .file
  else if isDirFS fs p then .dir
  else .errNotExist

/-- Model of `os.IsNotExist(err)` on a stat outcome. -/
def isNotExistErr : StatRes → Bool
  | .errNotExist => true
  | _ => false

/-- Mirrors lines 207-213: `fileExists` is true whenever the stat error is
not a non-existence error — so also for directories and for stat failures
such as permission errors. -/
def fileExists (fs : FS) (p : Str) : Bool := !isNotExistErr (osStat fs p)

/-- Model of `ioutil.ReadFile`: succeeds exactly on readable files. -/
def readFileFS (fs : FS) (p : Str) : Option Str :=
  if osStat fs p = .file then lookupFile fs p else none

/-- Model of `ioutil.WriteFile` as used on line 143: every write target in
`runPack` was read successfully at the top of the same call (and nothing
deletes files), so the write is an in-place update of an existing entry. -/
def writeFileFS (fs : FS) (p c : Str) : FS :=
  { fs with files := fs.files.map (fun e => if e.1 = p then (p, c) else e) }

/-- Model of `os.Create` + `io.Copy` inside `copyNpmModule`: create the
file or replace its content. -/
def createFileFS (fs : FS) (p c : Str) : FS :=
  if (lookupFile fs p).isSome then
    { fs with files := fs.files.map (fun e => if e.1 = p then (p, c) else e) }
  else { fs with files := fs.files ++ [(p, c)] }

/-- Model of `os.MkdirAll` (idempotent, line 234). -/
def mkdirAll (fs : FS) (d : Str) : FS :=
  if d ∈ fs.dirs then fs else { fs with dirs := fs.dirs ++ [d] }

/-- Byte-wise lexicographic order on names, the order `os.ReadDir` sorts
directory entries in. -/
def strLtCh : Str → Str → Bool
  | [], [] => false
  | [], _ :: _ => true
  | _ :: _, [] => false
  | a :: as, b :: bs => if a = b then strLtCh as bs else decide (a.val < b.val)

/-- Insertion into a sorted list. -/
def insSorted (lt : α → α → Bool) (x : α) : List α → List α
  | [] => [x]
  | y :: ys => if lt x y then x :: y :: ys else y :: insSorted lt x ys

/-- Insertion sort by a boolean order. -/
def sortByB (lt : α → α → Bool) (l : List α) : List α := l.foldr (insSorted lt) []

/-- Lexicographic order on component lists. -/
def strListLt : List Str → List Str → Bool
  | [], [] => false
  | [], _ :: _ => true
  | _ :: _, [] => false
  | a :: as, b :: bs => if a = b then strListLt as bs else strLtCh a b

/-- Order of paths by their slash-separated components: exactly the order
in which `filepath.WalkDir` (depth-first, pre-order, children sorted by
name) visits paths. -/
def pathCompLt (a b : Str) : Bool := strListLt (splitOnChar '/' a) (splitOnChar '/' b)

/-- The direct child of `d` that the path `q` lies under or at,
with a flag for whether `q` continues deeper. -/
def childNameOf (d q : Str) : Option (Str × Bool) :=
  if (d ++ ['/']).isPrefixOf q then
    let rest := q.drop (d.length + 1)
    match splitOnChar '/' rest with
    | [n] => if n = [] then none else some (n, false)
    | n :: _ :: _ => if n = [] then none else some (n, true)
    | [] => none
  else none

/-- Model of `os.ReadDir`: sorted direct children of a directory with
their directory flag; empty on a read error (`p` not a directory), in
which case line 196 logs and the loop over `nil` runs zero times. -/
def childEntries (fs : FS) (p : Str) : List (Str × Bool) :=
  if isDirFS fs p then
    let names := ((fileKeys fs ++ fs.dirs).filterMap (childNameOf p)).map Prod.fst
    (sortByB strLtCh names.dedup).map (fun n => (n, isDirFS fs (p ++ '/' :: n)))
  else []

/-- Mirrors `findJSFile` (lines 191-205): scan the directory's entries in
listing order; the last entry whose name has extension ".js" or ".mjs"
wins; empty when there is none or the directory is unreadable. -/
def findJSFile (fs : FS) (p : Str) : Str :=
  (childEntries fs p).foldl (fun acc e =>
    if fpExt e.1 = jsLit || fpExt e.1 = mjsLit then p ++ '/' :: e.1 else acc) []

/-- Join components with a separator (inverse of `splitOnChar`). -/
def joinSep (sep : Char) : List Str → Str
  | [] => []
  | [x] => x
  | x :: y :: rest => x ++ sep :: joinSep sep (y :: rest)

/-- All ancestors of `q` strictly below `root`, plus `q` itself, when `q`
lies under (or at) `root`. -/
def ancWithin (root q : Str) : List Str :=
  if (root ++ ['/']).isPrefixOf q then
    let cs := splitOnChar '/' (q.drop (root.length + 1))
    (List.range cs.length).map (fun i => root ++ '/' :: joinSep '/' (cs.take (i + 1)))
  else if q = root then [root] else []

/-- Candidate node paths of a walk from `root`: the root and every
ancestor-or-self of a file or directory lying under it. -/
def nodeCand (fs : FS) (root : Str) : List Str :=
  root :: (fileKeys fs ++ fs.dirs).foldr (fun q acc => ancWithin root q ++ acc) []

/-- The pre-order traversal sequence of `filepath.WalkDir` from `root`:
all paths at or under `root`, sorted in component order, with their
directory flags. -/
def nodesUnder (fs : FS) (root : Str) : List (Str × Bool) :=
  (sortByB pathCompLt (nodeCand fs root).dedup).map (fun p => (p, isDirFS fs p))

/-- Result of starting a `filepath.WalkDir`: either the root could not be
stat'ed (the callback then receives a nil `DirEntry` and a non-nil error)
or the pre-order entry sequence. -/
inductive WalkRes where
  | rootErr
  | entries (l : List (Str × Bool))
deriving DecidableEq, Repr

/-- Model of `filepath.WalkDir` stripped to what the two callbacks in
gopack.go observe. -/
def walkList (fs : FS) (root : Str) : WalkRes :=
  match osStat fs root with
  | .file => .entries (nodesUnder fs root)
  | .dir => .entries (nodesUnder fs root)
  | _ => .rootErr

/-- Literal "/spa/web_modules", the mirror root below the build directory
(lines 118 and 153). -/
def webModDir : Str := ("/spa/web_modules").toList

/-- Destination path of a copied cache file (line 231):
`gopackDir + strings.Replace(modulePath, "node_modules", "", 1)`. -/
def mirrorName (gopackDir p : Str) : Str := gopackDir ++ replaceFirst p nmLit []

/-- One step of the `copyNpmModule` walk callback (lines 217-248): copy a
non-directory ".mjs" entry to the mirror tree, creating directories. -/
def copyStep (gopackDir : Str) (acc : FS) (e : Str × Bool) : FS :=
  if !e.2 && fpExt e.1 = mjsLit then
    match lookupFile acc e.1 with
    | some content =>
      let outP := mirrorName gopackDir e.1
      createFileFS (mkdirAll acc (pathDir outP)) outP content
    | none => acc
  else acc

/-- Mirrors `copyNpmModule` (lines 215-253).  When the cache directory
`node_modules/<module>` does not exist, the callback receives the root
error and returns it, aborting the walk (the error is only logged). -/
def copyNpmModule (fs : FS) (module gopackDir : Str) : FS :=
  match walkList fs (nmLit ++ '/' :: module) with
  | .rootErr => fs
  | .entries l => l.foldl (copyStep gopackDir) fs

/-- The walk phase of `checkNpmPath` (lines 161-177): for each directory in
pre-order, look for a JS file among its direct children; stop at the first
hit (the callback returns `io.EOF`). -/
def walkFindJS (fs : FS) : List (Str × Bool) → Str
  | [] => []
  | e :: rest =>
    if e.2 then
      let f := findJSFile fs e.1
      if f ≠ [] then f else walkFindJS fs rest
    else walkFindJS fs rest

/-- Mirrors `checkNpmPath` (lines 151-188).  `none` models the runtime
panic: when the walk root cannot be stat'ed, the callback logs the error
and then calls `subPathFileInfo.IsDir()` on a nil `fs.DirEntry` (line
166), a nil interface dereference. -/
def checkNpmPath (fs : FS) (buildPath pathStr : Str) : Option Str :=
  let namedPath := buildPath ++ webModDir ++ '/' :: pathStr
  let found := findJSFile fs namedPath
  if found ≠ [] then some found
  else
    match walkList fs namedPath with
    | .rootErr => none
    | .entries l => some (walkFindJS fs l)

/-! ## The graph walker `runPack` -/

/-- Observable events of a run, used to state traversal properties:
`visit` records a module that passed the guard and was read successfully,
the others record the log lines and call sites of lines 63-139. -/
inductive Ev where
  | visit (p : Str)
  | readErr (p : Str)
  | foundLocal (full conv : Str)
  | copyMod (name : Str)
  | relErr (p : Str)
  | warnUnresolved (path file : Str)
deriving DecidableEq, Repr

/-- Result of a `runPack` call: a Go runtime panic, fuel exhaustion of the
model, or normal completion with the final filesystem, the event trace and
the returned `error`. -/
inductive RRes where
  | panicked
  | fuelOut
  | ok (fs : FS) (tr : List Ev) (err : Option Str)
deriving DecidableEq, Repr

/-- State threaded through the statement loop of lines 84-141. -/
inductive SRes where
  | panicked
  | fuelOut
  | ok (fs : FS) (content : Str) (visited : List Str) (tr : List Ev)
deriving DecidableEq, Repr

/-- The read-failure error of lines 63-66, carrying the file path. -/
def readFailMsg (p : Str) : Str :=
  ("Could not read file ").toList ++ p ++ (" to convert to esm").toList

/-- The quoted path extracted from a static statement (lines 86-90):
`rePath.Find` (nil becomes the empty string) with quotes trimmed. -/
def stmtPathRaw (stmt : Str) : Str := (rePathFind stmt).getD []

/-- The path string after the ".svelte" to ".js" extension fix of lines
95-98. -/
def stmtPath (stmt : Str) : Str :=
  let p := trimQuotes (stmtPathRaw stmt)
  if fpExt p = svelteLit then replaceFirst p svelteLit jsLit else p

/-- Line 101: the referenced location on the filesystem,
`path.Clean(path.Dir(convertPath) + "/" + pathStr)`. -/
def rewriteTarget (conv stmt : Str) : Str :=
  pathClean (pathDir conv ++ '/' :: stmtPath stmt)

/-- Line 132: wrap a path in single quotes. -/
def quoteWrap (s : Str) : Str := Char.ofNat 39 :: (s ++ [Char.ofNat 39])

/-- Lines 128-140: if a path was found, strip the build dir, re-quote and
substitute it into the statement and the statement back into the content;
otherwise log the unresolved-import warning and leave the content as is. -/
def finishStmt (fs : FS) (buildPath conv : Str) (v : List Str) (tr : List Ev)
    (content stmt foundPath : Str) : SRes :=
  if foundPath = [] then
    .ok fs content v (tr ++ [.warnUnresolved (stmtPath stmt) conv])
  else
    let replacePath := quoteWrap (replaceFirst foundPath buildPath [])
    let newStmt := rePathReplaceAll stmt (rePathReplaceAll (stmtPathRaw stmt) replacePath)
    .ok fs (replaceAll content stmt newStmt) v tr

/-- Lines 116-126, the bare-package branch body (entered when the path is
non-empty, does not start with a dot and has no extension): copy the npm
module, resolve it in the mirror tree (which can panic, see
`checkNpmPath`), and make the result relative to the converting file
(`filepath.Rel` errors leave `foundPath` empty). -/
def bareStep (fs : FS) (buildPath conv : Str) (v : List Str) (tr : List Ev)
    (content stmt ps : Str) : SRes :=
  let fs1 := copyNpmModule fs ps (buildPath ++ webModDir)
  let tr1 := tr ++ [.copyMod ps]
  match checkNpmPath fs1 buildPath ps with
  | none => .panicked
  | some npmPath =>
    match filepathRel (pathDir conv) npmPath with
    | none => finishStmt fs1 buildPath conv v (tr1 ++ [.relErr npmPath]) content stmt []
    | some rel => finishStmt fs1 buildPath conv v tr1 content stmt rel

/-- Lines 114-140 after the local-file branch: evaluating `pathStr[:1]`
panics when the path string is empty; otherwise the bare-package branch
runs when the path has no leading dot and no extension, else the statement
is finished with whatever the local branch found. -/
def afterLocal (buildPath conv : Str) (content stmt ps : Str)
    (fs' : FS) (v' : List Str) (tr' : List Ev) (found0 : Str) : SRes :=
  if ps = [] then .panicked
  else if ps.headD ' ' ≠ '.' && fpExt ps = [] then
    bareStep fs' buildPath conv v' tr' content stmt ps
  else
    finishStmt fs' buildPath conv v' tr' content stmt found0

/-- Lines 84-140 for one static statement.  `rec` is the recursive
`runPack` invocation of line 111 (whose returned error is discarded). -/
def processStmt (rec : FS → Str → List Str → RRes) (fs : FS) (buildPath conv : Str)
    (v : List Str) (tr : List Ev) (content stmt : Str) : SRes :=
  let ps := stmtPath stmt
  let full := rewriteTarget conv stmt
  if fileExists fs full then
    match rec fs full (v ++ [conv]) with
    | .panicked => .panicked
    | .fuelOut => .fuelOut
    | .ok fs' trc _err =>
      afterLocal buildPath conv content stmt ps fs' (v ++ [conv])
        (tr ++ [.foundLocal full conv] ++ trc) ps
  else afterLocal buildPath conv content stmt ps fs v tr []

/-- Fold step over the statement list. -/
def stepStmt (rec : FS → Str → List Str → RRes) (buildPath conv : Str)
    (acc : SRes) (stmt : Str) : SRes :=
  match acc with
  | .ok fs content v tr => processStmt rec fs buildPath conv v tr content stmt
  | other => other

/-- The body of `runPack` (lines 51-149) with the recursive call of line
111 abstracted as `rec`: the guard over the already-converted list, the
read, the dynamic-import fix, the loop over all static import and export
statements, and the final write-back. -/
def runPackF (buildPath : Str) (rec : FS → Str → List Str → RRes)
    (fs : FS) (conv : Str) (v : List Str) : RRes :=
  if conv ∈ v then .ok fs [] none
  else
    match readFileFS fs conv with
    | none => .ok fs [.readErr conv] (some (readFailMsg conv))
    | some content0 =>
      let content1 := applyDynamicFix content0
      let stmts := findStaticImports content1 ++ findStaticExports content1
      match stmts.foldl (stepStmt rec buildPath conv) (.ok fs content1 v [.visit conv]) with
      | .panicked => .panicked
      | .fuelOut => .fuelOut
      | .ok fs2 content2 _ tr2 => .ok (writeFileFS fs2 conv content2) tr2 none

/-- Mirrors `runPack` with explicit fuel (one unit per nesting level of the
Go recursion), written with `Nat.rec` so that concrete runs compute. -/
def runPack (fuel : Nat) : Str → FS → Str → List Str → RRes :=
  Nat.rec (motive := fun _ => Str → FS → Str → List Str → RRes)
    (fun _ _ _ _ => .fuelOut)
    (fun _ ih buildPath => runPackF buildPath (ih buildPath)) fuel

/-- Mirrors `Gopack` (lines 40-49): run the resolution from the fixed
entry point inside the build directory. -/
def GopackRun (fuel : Nat) (fs : FS) (buildPath : Str) : RRes :=
  runPack fuel buildPath fs (buildPath ++ ("/spa/ejected/main.js").toList) []

/-! ## Observers and concrete fixtures -/

/-- How many times a completed run visited (read and rewrote) module `p`. -/
def visitCount (r : RRes) (p : Str) : Nat :=
  match r with
  | .ok _ tr _ => tr.countP (fun e => e = .visit p)
  | _ => 0

/-- Whether a completed run produced the event `e`. -/
def hasEv (r : RRes) (e : Ev) : Bool :=
  match r with
  | .ok _ tr _ => tr.any (fun x => x = e)
  | _ => false

/-- Content of file `p` in the final filesystem of a completed run. -/
def resultContent (r : RRes) (p : Str) : Option Str :=
  match r with
  | .ok fs _ _ => lookupFile fs p
  | _ => none

/-- The build directory used by the fixtures. -/
def pubP : Str := ("public").toList

/-- The entry module path used by most fixtures. -/
def mainP : Str := ("public/spa/ejected/main.js").toList

/-- C1 fixture: the entry module references the same existing sibling
module twice. -/
def fsC1 : FS :=
  ⟨[(mainP, ("import a from './b.js';\nimport c from './b.js';\n").toList),
    (("public/spa/ejected/b.js").toList, [])], [], []⟩

/-- C2 fixture: a static import statement that carries no quoted path
(`rePath.Find` returns nil, so the extracted path string is empty). -/
def fsC2 : FS := ⟨[(mainP, ("import x from y;\n").toList)], [], []⟩

/-- C3 fixture: the entry module imports the bare name "lib" while a
sibling directory `lib` exists on disk, and the dependency cache holds
`node_modules/lib/index.mjs`. -/
def fsC3 : FS :=
  ⟨[(mainP, ("import l from 'lib';\n").toList),
    (("public/spa/ejected/lib/x.txt").toList, []),
    (("node_modules/lib/index.mjs").toList, ("X").toList)], [], []⟩

/-- C4 fixture: the dependency cache holds only a ".js" file for "pkg". -/
def fsC4 : FS := ⟨[(("node_modules/pkg/index.js").toList, ("C").toList)], [], []⟩

/-- C6 fixture: the entry module imports a package that exists neither in
the dependency cache nor in the mirror tree. -/
def fsC6 : FS := ⟨[(mainP, ("import m from 'nopkg';\n").toList)], [], []⟩

/-- C8 fixture: `a/index.js` imports `./b.svelte` and the compiled sibling
`b.js` exists. -/
def fsC8 : FS :=
  ⟨[(("public/spa/a/index.js").toList, ("import B from './b.svelte';\n").toList),
    (("public/spa/a/b.js").toList, [])], [], []⟩

/-- C4 witness fixture: the cache for "pkg" holds an ".mjs" file and a
non-loadable file. -/
def fsC4w : FS :=
  ⟨[(("node_modules/pkg/index.mjs").toList, ("M").toList),
    (("node_modules/pkg/readme.txt").toList, ("R").toList)], [], []⟩

/-- C7 fixture: package "pk" has no root-level loadable file but one under
`dist/`. -/
def fsC7 : FS :=
  ⟨[(("public/spa/web_modules/pk/readme.txt").toList, []),
    (("public/spa/web_modules/pk/dist/index.mjs").toList, ("Y").toList)], [], []⟩

/-- C7 fixture: several loadable files at the top level of "pk". -/
def fsC7b : FS :=
  ⟨[(("public/spa/web_modules/pk/a.js").toList, []),
    (("public/spa/web_modules/pk/b.mjs").toList, []),
    (("public/spa/web_modules/pk/c.js").toList, [])], [], []⟩

/-- C7 fixture: no loadable file anywhere under "pk". -/
def fsC7c : FS := ⟨[(("public/spa/web_modules/pk/readme.txt").toList, [])], [], []⟩

/-- Is `p` at or under `root`. -/
def underRootB (root p : Str) : Bool := p = root || (root ++ ['/']).isPrefixOf p

/-- A dependency-cache source file of the walk from `root`: a readable
non-directory entry at or under `root` whose extension is ".mjs". -/
def cacheSrc (fs : FS) (root p : Str) : Bool :=
  underRootB root p && !isDirFS fs p && decide (fpExt p = mjsLit) && (lookupFile fs p).isSome

/-- Upper bound on the paths a run with build directory `bp` can ever
read: the current file paths together with the mirror positions of the
dependency-cache paths (the only paths `copyNpmModule` can create). -/
def univKeys (bp : Str) (ks : List Str) : List Str :=
  ks ++ ks.filterMap (fun k =>
    if nmLit.isPrefixOf k then some (mirrorName (bp ++ webModDir) k) else none)

/-- The same bound as a finite set. -/
def univSet (bp : Str) (fs : FS) : Finset Str := (univKeys bp (fileKeys fs)).toFinset

/-- Number of not-yet-visited candidate paths: the decreasing measure of
the Go recursion, and a sufficient fuel bound for the model. -/
def visitBound (bp : Str) (fs : FS) (v : List Str) : Nat :=
  ((univSet bp fs) \ v.toFinset).card

/-! ## General lemmas about the text rewriting primitives -/

theorem isPfxOf_iff (a b : Str) : a.isPrefixOf b = true ↔ a <+: b :=
  List.isPrefixOf_iff_prefix

theorem pfxTotal {l1 l2 l3 : Str} (h1 : l1 <+: l3) (h2 : l2 <+: l3) :
    l1 <+: l2 ∨ l2 <+: l1 :=
  List.prefix_or_prefix_of_prefix h1 h2

theorem pfxTrans {l1 l2 l3 : Str} (h1 : l1 <+: l2) (h2 : l2 <+: l3) : l1 <+: l3 :=
  h1.trans h2

theorem isPrefixOf_of_append {pat l t : Str} (h : pat.isPrefixOf l = true) :
    pat.isPrefixOf (l ++ t) = true := by
  rw [isPfxOf_iff _ _] at h ⊢
  exact h.trans (List.prefix_append l t)

theorem hasSub_false_elim {s pat : Str} (h : hasSub s pat = false) :
    pat.isEmpty = false ∧ ∀ c rest, s = c :: rest →
      (pat.isPrefixOf (c :: rest) = false ∧ hasSub rest pat = false) := by
  constructor
  · cases s with
    | nil => simpa [hasSub] using h
    | cons c rest =>
      simp only [hasSub, Bool.or_eq_false_iff] at h
      cases hp : pat with
      | nil => rw [hp] at h; simp [List.isPrefixOf] at h
      | cons a l => simp [List.isEmpty]
  · intro c rest hs
    subst hs
    simpa [hasSub, Bool.or_eq_false_iff] using h

theorem replaceFirst_of_not_hasSub {s pat r : Str} (h : hasSub s pat = false) :
    replaceFirst s pat r = s := by
  induction s with
  | nil =>
    have he := (hasSub_false_elim h).1
    simp [replaceFirst, he]
  | cons c rest ih =>
    have he := (hasSub_false_elim h).1
    have hcr := (hasSub_false_elim h).2 c rest rfl
    simp only [replaceFirst, he, Bool.false_eq_true, if_false, hcr.1]
    rw [ih hcr.2]

theorem replaceFirst_self (s pat : Str) : replaceFirst s pat pat = s := by
  induction s with
  | nil =>
    by_cases he : pat.isEmpty
    · have : pat = [] := by simpa [List.isEmpty_iff] using he
      simp [replaceFirst, he, this]
    · simp [replaceFirst, he]
  | cons c rest ih =>
    by_cases he : pat.isEmpty
    · have : pat = [] := by simpa [List.isEmpty_iff] using he
      simp [replaceFirst, he, this]
    · cases hp : pat.isPrefixOf (c :: rest) with
      | true =>
        have hp' := hp
        rw [isPfxOf_iff _ _] at hp'
        obtain ⟨t, ht⟩ := hp'
        simp only [replaceFirst, he, if_false, hp, if_true]
        rw [← ht, List.drop_left]
        simp
      | false =>
        simp only [replaceFirst, he, if_false, hp, Bool.false_eq_true]
        rw [ih]

theorem replaceFirst_decomp {s pat : Str} (hpat : pat ≠ []) (h : hasSub s pat = true)
    (r : Str) :
    ∃ pre post, s = pre ++ pat ++ post ∧ hasSub pre pat = false ∧
      replaceFirst s pat r = pre ++ r ++ post := by
  have hne : pat.isEmpty = false := by
    cases pat with
    | nil => exact absurd rfl hpat
    | cons a l => simp [List.isEmpty]
  induction s with
  | nil =>
    exfalso
    cases pat with
    | nil => exact hpat rfl
    | cons a l => simp [hasSub, List.isEmpty] at h
  | cons c rest ih =>
    cases hp : pat.isPrefixOf (c :: rest) with
    | true =>
      have hp' := hp
      rw [isPfxOf_iff _ _] at hp'
      obtain ⟨t, ht⟩ := hp'
      refine ⟨[], t, ?_, ?_, ?_⟩
      · simpa using ht.symm
      · cases pat with
        | nil => exact absurd rfl hpat
        | cons a l => simp [hasSub, List.isEmpty]
      · simp only [replaceFirst, hne, Bool.false_eq_true, if_false, hp, if_true]
        rw [← ht, List.drop_left]
        simp
    | false =>
      have hrest : hasSub rest pat = true := by
        simp only [hasSub, Bool.or_eq_true] at h
        rcases h with h | h
        · rw [hp] at h; exact absurd h (by simp)
        · exact h
      obtain ⟨pre, post, hs, hpre, hrw⟩ := ih hrest
      refine ⟨c :: pre, post, by simp [hs], ?_, ?_⟩
      · simp only [hasSub, Bool.or_eq_false_iff]
        refine ⟨?_, hpre⟩
        cases hx : pat.isPrefixOf (c :: pre) with
        | false => rfl
        | true =>
          exfalso
          have h2 : pat.isPrefixOf ((c :: pre) ++ (pat ++ post)) = true := isPrefixOf_of_append hx
          have h3 : (c :: pre) ++ (pat ++ post) = c :: rest := by
            rw [hs]; simp
          rw [h3, hp] at h2
          exact absurd h2 (by simp)
      · simp only [replaceFirst, hne, Bool.false_eq_true, if_false, hp, if_true]
        rw [hrw]
        simp

/-! ## Lemmas about the filesystem primitives -/

theorem splitOnChar_ne_nil (sep : Char) (s : Str) : splitOnChar sep s ≠ [] := by
  cases s with
  | nil => simp [splitOnChar]
  | cons c rest =>
    by_cases hc : c = sep
    · simp [splitOnChar, hc]
    · simp only [splitOnChar, if_neg hc]
      cases splitOnChar sep rest with
      | nil => simp
      | cons h t => simp

theorem joinSep_splitOn (sep : Char) (s : Str) : joinSep sep (splitOnChar sep s) = s := by
  induction s with
  | nil => rfl
  | cons c rest ih =>
    by_cases hc : c = sep
    · subst hc
      simp only [splitOnChar, if_pos rfl]
      cases hr : splitOnChar c rest with
      | nil => exact absurd hr (splitOnChar_ne_nil c rest)
      | cons h t =>
        rw [hr] at ih
        show [] ++ c :: joinSep c (h :: t) = c :: rest
        rw [ih]
        simp
    · simp only [splitOnChar, if_neg hc]
      cases hr : splitOnChar sep rest with
      | nil => exact absurd hr (splitOnChar_ne_nil sep rest)
      | cons h t =>
        rw [hr] at ih
        cases t with
        | nil =>
          show c :: h = c :: rest
          have ih' : h = rest := ih
          rw [ih']
        | cons y t2 =>
          show (c :: h) ++ sep :: joinSep sep (y :: t2) = c :: rest
          have ih' : h ++ sep :: joinSep sep (y :: t2) = rest := ih
          rw [← ih']
          simp

theorem lookupL_map_replace_ne {l : List (Str × Str)} {p c q : Str} (h : q ≠ p) :
    lookupL (l.map (fun e => if e.1 = p then (p, c) else e)) q = lookupL l q := by
  induction l with
  | nil => rfl
  | cons e rest ih =>
    by_cases he : e.1 = p
    · simp only [List.map_cons, if_pos he, lookupL]
      rw [if_neg (fun hh => h hh.symm), if_neg (by rw [he]; exact fun hh => h hh.symm)]
      exact ih
    · simp only [List.map_cons, if_neg he, lookupL]
      by_cases heq : e.1 = q
      · rw [if_pos heq, if_pos heq]
      · rw [if_neg heq, if_neg heq]
        exact ih

theorem lookupL_map_replace_eq {l : List (Str × Str)} {p c : Str}
    (h : (lookupL l p).isSome = true) :
    lookupL (l.map (fun e => if e.1 = p then (p, c) else e)) p = some c := by
  induction l with
  | nil => simp [lookupL] at h
  | cons e rest ih =>
    by_cases he : e.1 = p
    · simp [lookupL, he]
    · simp only [List.map_cons, if_neg he, lookupL, if_neg he]
      apply ih
      rw [lookupL, if_neg he] at h
      exact h

theorem lookupL_append_one (l : List (Str × Str)) (p c q : Str) :
    lookupL (l ++ [(p, c)]) q =
      ((lookupL l q).or (if p = q then some c else none)) := by
  induction l with
  | nil => rfl
  | cons e rest ih =>
    simp only [List.cons_append, lookupL]
    by_cases he : e.1 = q
    · rw [if_pos he, if_pos he]; rfl
    · rw [if_neg he, if_neg he]
      exact ih

theorem lookup_mkdir (fs : FS) (d q : Str) :
    lookupFile (mkdirAll fs d) q = lookupFile fs q := by
  rw [mkdirAll]
  split <;> rfl

theorem lookup_create (fs : FS) (p c q : Str) :
    lookupFile (createFileFS fs p c) q = if q = p then some c else lookupFile fs q := by
  rw [createFileFS]
  by_cases hs : (lookupFile fs p).isSome = true
  · rw [if_pos hs]
    by_cases hq : q = p
    · subst hq
      rw [if_pos rfl]
      exact lookupL_map_replace_eq hs
    · rw [if_neg hq]
      exact lookupL_map_replace_ne hq
  · rw [if_neg hs]
    show lookupL (fs.files ++ [(p, c)]) q = _
    rw [lookupL_append_one, lookupFile]
    by_cases hq : q = p
    · subst hq
      cases hv : lookupL fs.files q with
      | some v =>
        exfalso
        apply hs
        rw [lookupFile, hv]
        rfl
      | none => simp
    · cases hv : lookupL fs.files q with
      | some v =>
        rw [if_neg hq]
        rfl
      | none =>
        rw [if_neg hq, if_neg (fun hh => hq hh.symm)]
        rfl

theorem lookupL_mem {l : List (Str × Str)} {p c : Str} (h : lookupL l p = some c) :
    p ∈ l.map Prod.fst := by
  induction l with
  | nil => simp [lookupL] at h
  | cons e rest ih =>
    rw [lookupL] at h
    by_cases he : e.1 = p
    · simp [← he]
    · rw [if_neg he] at h
      simp [ih h]

theorem nm_not_pfx_of_sep {gdir : Str} (h1 : ¬ gdir <+: nmLit) (h2 : ¬ nmLit <+: gdir) :
    ∀ t, nmLit.isPrefixOf (gdir ++ t) = false := by
  intro t
  cases hp : nmLit.isPrefixOf (gdir ++ t) with
  | false => rfl
  | true =>
    exfalso
    rw [isPfxOf_iff _ _] at hp
    rcases pfxTotal hp (List.prefix_append gdir t) with h | h
    · exact h2 h
    · exact h1 h

theorem replaceFirst_of_isPfx {s pat r : Str} (hpat : pat ≠ [])
    (h : pat.isPrefixOf s = true) :
    replaceFirst s pat r = r ++ s.drop pat.length := by
  have hne : pat.isEmpty = false := by
    cases pat with
    | nil => exact absurd rfl hpat
    | cons a l => simp [List.isEmpty]
  cases s with
  | nil =>
    rw [isPfxOf_iff _ _] at h
    exact absurd (List.prefix_nil.mp h) hpat
  | cons c rest =>
    simp only [replaceFirst, hne, Bool.false_eq_true, if_false, h, if_true]

theorem mirror_inj {g p p' : Str} (hp : nmLit.isPrefixOf p = true)
    (hp' : nmLit.isPrefixOf p' = true) (h : mirrorName g p = mirrorName g p') : p = p' := by
  rw [mirrorName, mirrorName, replaceFirst_of_isPfx (by decide) hp,
    replaceFirst_of_isPfx (by decide) hp'] at h
  simp only [List.nil_append] at h
  have h2 := List.append_cancel_left h
  rw [isPfxOf_iff _ _] at hp hp'
  obtain ⟨t, ht⟩ := hp
  obtain ⟨t', ht'⟩ := hp'
  rw [← ht, ← ht', List.drop_left, List.drop_left] at h2
  rw [← ht, ← ht', h2]

theorem insSorted_perm {α : Type} (lt : α → α → Bool) (x : α) :
    ∀ l : List α, (insSorted lt x l).Perm (x :: l) := by
  intro l
  induction l with
  | nil => exact List.Perm.refl _
  | cons y ys ih =>
    rw [insSorted]
    by_cases h : lt x y = true
    · rw [if_pos h]
    · rw [if_neg h]
      exact (ih.cons y).trans (List.Perm.swap x y ys)

theorem sortByB_perm {α : Type} (lt : α → α → Bool) :
    ∀ l : List α, (sortByB lt l).Perm l := by
  intro l
  induction l with
  | nil => exact List.Perm.refl _
  | cons x xs ih =>
    exact (insSorted_perm lt x _).trans (ih.cons x)

theorem mem_foldr_anc (root : Str) :
    ∀ (l : List Str) (x : Str),
      x ∈ l.foldr (fun q acc => ancWithin root q ++ acc) [] ↔ ∃ q ∈ l, x ∈ ancWithin root q := by
  intro l x
  induction l with
  | nil => simp
  | cons a as ih =>
    simp only [List.foldr_cons, List.mem_append, ih, List.mem_cons]
    constructor
    · rintro (h | ⟨q, hq, hx⟩)
      · exact ⟨a, Or.inl rfl, h⟩
      · exact ⟨q, Or.inr hq, hx⟩
    · rintro ⟨q, hq | hq, hx⟩
      · subst hq; exact Or.inl hx
      · exact Or.inr ⟨q, hq, hx⟩

theorem anc_under {root q p : Str} (h : p ∈ ancWithin root q) : underRootB root p = true := by
  rw [ancWithin] at h
  by_cases h1 : (root ++ ['/']).isPrefixOf q = true
  · rw [if_pos h1] at h
    obtain ⟨i, _, hp⟩ := List.mem_map.mp h
    subst hp
    have hpfx : (root ++ ['/']).isPrefixOf
        (root ++ '/' :: joinSep '/' ((splitOnChar '/' (q.drop (root.length + 1))).take (i + 1)))
        = true := by
      rw [isPfxOf_iff _ _]
      refine ⟨joinSep '/' ((splitOnChar '/' (q.drop (root.length + 1))).take (i + 1)), ?_⟩
      simp
    simp [underRootB, hpfx]
  · rw [if_neg h1] at h
    by_cases h2 : q = root
    · rw [if_pos h2] at h
      simp only [List.mem_singleton] at h
      subst h
      simp [underRootB]
    · rw [if_neg h2] at h
      simp at h

theorem mem_anc_self {root q : Str} (h : (root ++ ['/']).isPrefixOf q = true) :
    q ∈ ancWithin root q := by
  rw [ancWithin, if_pos h]
  rw [isPfxOf_iff _ _] at h
  obtain ⟨t, ht⟩ := h
  have hdrop : q.drop (root.length + 1) = t := by
    rw [← ht]
    have hlen : (root ++ ['/']).length = root.length + 1 := by simp
    rw [← hlen, List.drop_left]
  have hnn : splitOnChar '/' (q.drop (root.length + 1)) ≠ [] := splitOnChar_ne_nil _ _
  have hpos : 0 < (splitOnChar '/' (q.drop (root.length + 1))).length :=
    List.length_pos.mpr hnn
  refine List.mem_map.mpr ⟨(splitOnChar '/' (q.drop (root.length + 1))).length - 1, ?_, ?_⟩
  · rw [List.mem_range]
    omega
  · have hl : (splitOnChar '/' (q.drop (root.length + 1))).length - 1 + 1 =
        (splitOnChar '/' (q.drop (root.length + 1))).length := by omega
    rw [hl, List.take_length, joinSep_splitOn, hdrop, ← ht]
    simp

theorem underRootB_root (root : Str) : underRootB root root = true := by
  simp [underRootB]

theorem mem_nodesUnder {fs : FS} {root : Str} {e : Str × Bool}
    (h : e ∈ nodesUnder fs root) :
    e.2 = isDirFS fs e.1 ∧ underRootB root e.1 = true := by
  rw [nodesUnder] at h
  obtain ⟨p, hp, he⟩ := List.mem_map.mp h
  subst he
  refine ⟨rfl, ?_⟩
  have hp2 : p ∈ (nodeCand fs root).dedup := ((sortByB_perm _ _).mem_iff).mp hp
  have hp3 : p ∈ nodeCand fs root := List.mem_dedup.mp hp2
  rw [nodeCand, List.mem_cons] at hp3
  rcases hp3 with rfl | hin
  · exact underRootB_root p
  · obtain ⟨q, _, hpq⟩ := (mem_foldr_anc root _ p).mp hin
    exact anc_under hpq

theorem under_mem_nodes {fs : FS} {root p : Str} (hk : p ∈ fileKeys fs ++ fs.dirs)
    (hu : underRootB root p = true) :
    (p, isDirFS fs p) ∈ nodesUnder fs root := by
  rw [nodesUnder]
  refine List.mem_map.mpr ⟨p, ?_, rfl⟩
  apply ((sortByB_perm _ _).mem_iff).mpr
  apply List.mem_dedup.mpr
  rw [nodeCand, List.mem_cons]
  rw [underRootB, Bool.or_eq_true, decide_eq_true_eq] at hu
  rcases hu with h | h
  · exact Or.inl h
  · exact Or.inr ((mem_foldr_anc root _ p).mpr ⟨p, hk, mem_anc_self h⟩)

theorem nodesUnder_firsts_nodup (fs : FS) (root : Str) :
    ((nodesUnder fs root).map Prod.fst).Nodup := by
  rw [nodesUnder, List.map_map]
  have : (Prod.fst ∘ fun p => (p, isDirFS fs p)) = id := rfl
  rw [this, List.map_id]
  exact ((sortByB_perm _ _).nodup_iff).mpr (List.nodup_dedup _)

theorem underRootNm {pkg p : Str} (hu : underRootB (nmLit ++ '/' :: pkg) p = true) :
    nmLit.isPrefixOf p = true := by
  rw [underRootB, Bool.or_eq_true, decide_eq_true_eq] at hu
  rw [isPfxOf_iff _ _]
  rcases hu with h | h
  · subst h
    exact List.prefix_append nmLit ('/' :: pkg)
  · rw [isPfxOf_iff _ _] at h
    refine pfxTrans ?_ h
    refine pfxTrans (List.prefix_append nmLit ('/' :: pkg)) ?_
    exact List.prefix_append (nmLit ++ '/' :: pkg) ['/']

theorem copyStep_lookup_ne (g : Str) (acc : FS) (e : Str × Bool) (q : Str)
    (hq : mirrorName g e.1 ≠ q) :
    lookupFile (copyStep g acc e) q = lookupFile acc q := by
  rw [copyStep]
  by_cases hcond : (!e.2 && decide (fpExt e.1 = mjsLit)) = true
  · rw [if_pos hcond]
    cases hlk : lookupFile acc e.1 with
    | none => rfl
    | some content =>
      rw [lookup_create, lookup_mkdir, if_neg (fun hh => hq hh.symm)]
  · rw [if_neg hcond]

theorem copyStep_writes (g : Str) (acc : FS) (e : Str × Bool) (h2 : e.2 = false)
    (hext : fpExt e.1 = mjsLit) {c : Str} (hl : lookupFile acc e.1 = some c) :
    lookupFile (copyStep g acc e) (mirrorName g e.1) = some c := by
  rw [copyStep, if_pos (by simp [h2, hext]), hl, lookup_create, if_pos rfl]

theorem copyFold_ne (g : Str) :
    ∀ (l : List (Str × Bool)) (acc : FS) (q : Str),
      (∀ e ∈ l, mirrorName g e.1 ≠ q) →
      lookupFile (l.foldl (copyStep g) acc) q = lookupFile acc q := by
  intro l
  induction l with
  | nil => intro acc q _; rfl
  | cons e rest ih =>
    intro acc q hq
    rw [List.foldl_cons, ih (copyStep g acc e) q (fun x hx => hq x (by simp [hx])),
      copyStep_lookup_ne g acc e q (hq e (by simp))]

theorem copyFold_cache (g : Str) (hg : ∀ t, nmLit.isPrefixOf (g ++ t) = false) :
    ∀ (l : List (Str × Bool)) (acc : FS) (q : Str), nmLit.isPrefixOf q = true →
      lookupFile (l.foldl (copyStep g) acc) q = lookupFile acc q := by
  intro l
  induction l with
  | nil => intro acc q _; rfl
  | cons e rest ih =>
    intro acc q hq
    have hne : mirrorName g e.1 ≠ q := by
      intro hh
      rw [← hh, mirrorName] at hq
      rw [hg (replaceFirst e.1 nmLit [])] at hq
      exact Bool.false_ne_true hq
    rw [List.foldl_cons, ih (copyStep g acc e) q hq, copyStep_lookup_ne g acc e q hne]

theorem copyFold_writes (g : Str) (hg : ∀ t, nmLit.isPrefixOf (g ++ t) = false) :
    ∀ (l : List (Str × Bool)) (acc : FS) (p c : Str),
      (l.map Prod.fst).Nodup →
      (∀ e ∈ l, nmLit.isPrefixOf e.1 = true) →
      (p, false) ∈ l → fpExt p = mjsLit → lookupFile acc p = some c →
      lookupFile (l.foldl (copyStep g) acc) (mirrorName g p) = some c := by
  intro l
  induction l with
  | nil =>
    intro acc p c _ _ hmem
    simp at hmem
  | cons e rest ih =>
    intro acc p c hnd hnm hmem hext hl
    rw [List.foldl_cons]
    rcases List.mem_cons.mp hmem with he | hrest
    · rw [copyFold_ne g rest (copyStep g acc e) (mirrorName g p) ?later]
      · rw [← he] at *
        exact copyStep_writes g acc (p, false) rfl hext hl
      case later =>
        intro x hx heq
        have hxp : x.1 ≠ p := by
          intro hxp
          rw [List.map_cons, List.nodup_cons] at hnd
          apply hnd.1
          rw [← he, ← hxp]
          exact List.mem_map.mpr ⟨x, hx, rfl⟩
        exact hxp (mirror_inj (hnm x (by simp [hx])) (by rw [← he] at hnm; exact hnm (p, false) (by simp)) heq)
    · have hep : e.1 ≠ p → lookupFile (copyStep g acc e) p = some c := by
        intro _
        rw [copyStep_lookup_ne g acc e p ?notq]
        · exact hl
        case notq =>
          intro hh
          have hpn : nmLit.isPrefixOf p = true := hnm (p, false) (by simp [hrest])
          rw [← hh, mirrorName, hg (replaceFirst e.1 nmLit [])] at hpn
          exact Bool.false_ne_true hpn
      have hxp : e.1 ≠ p := by
        intro hxp
        rw [List.map_cons, List.nodup_cons] at hnd
        apply hnd.1
        rw [hxp]
        exact List.mem_map.mpr ⟨(p, false), hrest, rfl⟩
      exact ih (copyStep g acc e) p c
        (by rw [List.map_cons, List.nodup_cons] at hnd; exact hnd.2)
        (fun x hx => hnm x (by simp [hx])) hrest hext (hep hxp)

theorem copyFold_frame (g : Str) (fs : FS) (root : Str)
    (hg : ∀ t, nmLit.isPrefixOf (g ++ t) = false) :
    ∀ (l : List (Str × Bool)) (acc : FS) (q : Str),
      (∀ p', nmLit.isPrefixOf p' = true → lookupFile acc p' = lookupFile fs p') →
      (∀ e ∈ l, e.2 = isDirFS fs e.1 ∧ underRootB root e.1 = true ∧
        nmLit.isPrefixOf e.1 = true) →
      (∀ p', p' ∈ fileKeys fs → cacheSrc fs root p' = true → mirrorName g p' ≠ q) →
      lookupFile (l.foldl (copyStep g) acc) q = lookupFile acc q := by
  intro l
  induction l with
  | nil => intro acc q _ _ _; rfl
  | cons e rest ih =>
    intro acc q hagree hents hq
    obtain ⟨hflag, hunder, hnm⟩ := hents e (by simp)
    rw [List.foldl_cons]
    have hstep_agree : ∀ p', nmLit.isPrefixOf p' = true →
        lookupFile (copyStep g acc e) p' = lookupFile fs p' := by
      intro p' hp'
      rw [copyStep_lookup_ne g acc e p' ?notp]
      · exact hagree p' hp'
      case notp =>
        intro hh
        rw [← hh, mirrorName, hg (replaceFirst e.1 nmLit [])] at hp'
        exact Bool.false_ne_true hp'
    rw [ih (copyStep g acc e) q hstep_agree (fun x hx => hents x (by simp [hx])) hq]
    by_cases hcond : (!e.2 && decide (fpExt e.1 = mjsLit)) = true
    · cases hlk : lookupFile acc e.1 with
      | none => rw [copyStep, if_pos hcond, hlk]
      | some cc =>
        have hcond' := hcond
        rw [Bool.and_eq_true] at hcond'
        obtain ⟨h2', hext'⟩ := hcond'
        have h2 : e.2 = false := by
          cases hb : e.2 with
          | false => rfl
          | true => rw [hb] at h2'; simp at h2'
        have hext : fpExt e.1 = mjsLit := of_decide_eq_true hext'
        have hfs : lookupFile fs e.1 = some cc := by rw [← hagree e.1 hnm]; exact hlk
        have hdf : isDirFS fs e.1 = false := by rw [← hflag]; exact h2
        have hsrc : cacheSrc fs root e.1 = true := by
          simp [cacheSrc, hunder, hdf, hext, hfs]
        have hmemk : e.1 ∈ fileKeys fs := lookupL_mem hfs
        exact copyStep_lookup_ne g acc e q (hq e.1 hmemk hsrc)
    · rw [copyStep, if_neg hcond]

theorem foldl_fix_id (l : List Str) :
    ∀ c : Str, (∀ d ∈ l, hasSub d svelteLit = false) →
      l.foldl (fun acc d => replaceFirst acc d (fixDynamicImport d)) c = c := by
  induction l with
  | nil => intro c _; rfl
  | cons d rest ih =>
    intro c hall
    simp only [List.foldl_cons]
    have hd : hasSub d svelteLit = false := hall d (by simp)
    have hfix : fixDynamicImport d = d := replaceFirst_of_not_hasSub hd
    rw [hfix, replaceFirst_self]
    exact ih c (fun x hx => hall x (by simp [hx]))

/-- C9: dynamic-import rewriting replaces the foreign component extension
with the plain script extension and is idempotent.  Part 1: for any
dynamic-import match containing ".svelte", the per-match fix of line 72
replaces exactly the first ".svelte" occurrence (everything before it is
".svelte"-free) with ".js".  Part 2: when no dynamic-import match of a
module text contains ".svelte" (in particular when every dynamic import
path already uses ".js"), the whole dynamic-rewrite pass of lines 69-75
leaves the text unchanged. -/
theorem c9_dynamic_rewrite :
    (∀ d : Str, hasSub d svelteLit = true →
      ∃ pre post, d = pre ++ svelteLit ++ post ∧ hasSub pre svelteLit = false ∧
        fixDynamicImport d = pre ++ jsLit ++ post) ∧
    (∀ c : Str, (∀ d ∈ findDynamicImports c, hasSub d svelteLit = false) →
      applyDynamicFix c = c) := by
  constructor
  · intro d hd
    exact replaceFirst_decomp (by decide) hd jsLit
  · intro c hall
    exact foldl_fix_id (findDynamicImports c) c hall

/-- Witness for C9: the dynamic import `import('./x.svelte')` decomposes
around its ".svelte" occurrence, and a text whose only dynamic import
already uses ".js" is left unchanged by the rewrite pass. -/
theorem c9_witness :
    (∃ pre post, ("import('./x.svelte')").toList = pre ++ svelteLit ++ post ∧
      hasSub pre svelteLit = false ∧
      fixDynamicImport (("import('./x.svelte')").toList) = pre ++ jsLit ++ post) ∧
    applyDynamicFix (("const p = import('./x.js');").toList) =
      ("const p = import('./x.js');").toList :=
  ⟨c9_dynamic_rewrite.1 _ (by decide), c9_dynamic_rewrite.2 _ (by decide)⟩

theorem runPack_succ (fuel : Nat) (bp : Str) :
    runPack (fuel + 1) bp = runPackF bp (runPack fuel bp) := rfl

theorem finishStmt_ok {fs : FS} {bp conv : Str} {v : List Str} {tr : List Ev}
    {content stmt fp : Str} {fs2 : FS} {c2 : Str} {v2 : List Str} {tr2 : List Ev}
    (h : finishStmt fs bp conv v tr content stmt fp = .ok fs2 c2 v2 tr2) :
    fs2 = fs ∧ v2 = v ∧
      (tr2 = tr ∨ tr2 = tr ++ [.warnUnresolved (stmtPath stmt) conv]) := by
  by_cases hfp : fp = []
  · rw [finishStmt, if_pos hfp] at h
    injection h with h1 h2 h3 h4
    exact ⟨h1.symm, h3.symm, Or.inr h4.symm⟩
  · rw [finishStmt, if_neg hfp] at h
    injection h with h1 h2 h3 h4
    exact ⟨h1.symm, h3.symm, Or.inl h4.symm⟩

/-- C10: the existence check of lines 207-213 answers true for every path
whose stat does not report non-existence — directories (part 1) and stat
failures other than non-existence such as permission errors (part 2)
included — and consequently (part 3) a static reference whose computed
relative location is an existing directory takes the found-local branch of
lines 103-112: it is marked found (the `foundLocal` event, and the found
path `ps` handed on), recursed into (the callee's trace is incorporated),
exactly as if it were a module file. -/
theorem c10_file_exists :
    (∀ (fs : FS) (p : Str), osStat fs p = .dir → fileExists fs p = true) ∧
    (∀ (fs : FS) (p : Str), osStat fs p = .errOther → fileExists fs p = true) ∧
    (∀ (rec : FS → Str → List Str → RRes) (fs : FS) (bp conv : Str) (v : List Str)
      (tr : List Ev) (content stmt : Str) (fs' : FS) (trc : List Ev) (e : Option Str),
      osStat fs (rewriteTarget conv stmt) = .dir →
      rec fs (rewriteTarget conv stmt) (v ++ [conv]) = .ok fs' trc e →
      processStmt rec fs bp conv v tr content stmt =
        afterLocal bp conv content stmt (stmtPath stmt) fs' (v ++ [conv])
          (tr ++ [.foundLocal (rewriteTarget conv stmt) conv] ++ trc) (stmtPath stmt)) := by
  refine ⟨?_, ?_, ?_⟩
  · intro fs p h
    simp [fileExists, h, isNotExistErr]
  · intro fs p h
    simp [fileExists, h, isNotExistErr]
  · intro rec fs bp conv v tr content stmt fs' trc e hdir hrec
    have hex : fileExists fs (rewriteTarget conv stmt) = true := by
      simp [fileExists, hdir, isNotExistErr]
    simp only [processStmt, hex, if_true, hrec]

/-- Witness for C10: a directory (implied by the file inside it) and a
permission-failing path both count as existing, and with the concrete
filesystem `fsC10w` the import of the existing directory `./d` is marked
found-local and recursed into (the recursion failing to read the
directory), as the theorem's equation instantiates. -/
theorem c10_witness :
    fileExists (FS.mk [((("d/x.txt").toList), [])] [] []) (("d").toList) = true ∧
    fileExists (FS.mk [] [] [(("locked").toList)]) (("locked").toList) = true ∧
    processStmt (runPack 2 pubP)
      (FS.mk [(mainP, ("import a from './d';\n").toList),
        ((("public/spa/ejected/d/x.txt").toList), [])] [] [])
      pubP mainP [] [] (("import a from './d';\n").toList)
      (("import a from './d';").toList) =
      afterLocal pubP mainP (("import a from './d';\n").toList)
        (("import a from './d';").toList)
        (stmtPath (("import a from './d';").toList))
        (FS.mk [(mainP, ("import a from './d';\n").toList),
          ((("public/spa/ejected/d/x.txt").toList), [])] [] [])
        [mainP]
        ([.foundLocal (rewriteTarget mainP (("import a from './d';").toList)) mainP] ++
          [.readErr (rewriteTarget mainP (("import a from './d';").toList))])
        (stmtPath (("import a from './d';").toList)) := by
  refine ⟨c10_file_exists.1 _ _ (by decide), c10_file_exists.2.1 _ _ (by decide), ?_⟩
  exact c10_file_exists.2.2 (runPack 2 pubP) _ pubP mainP [] [] _ _ _ _
    (some (readFailMsg (rewriteTarget mainP (("import a from './d';").toList))))
    (by decide) (by decide)

/-- C5: module read failures are local.  Part 1: a call on an unreadable
module returns the read error (lines 63-66) without touching the
filesystem — in particular nothing is written for that module.  Part 2:
the error message names the failing file path.  Part 3: when the child
invocation of line 111 returns normally with ANY error value `e`, the
caller's statement processing continues to the same state regardless of
`e` (the equation's right side does not mention `e`): the reference is
still resolved via the found path and the remaining statements will be
processed.  Part 4: whenever the caller's statement loop completes, the
caller writes its own updated text (line 143). -/
theorem c5_read_failure_local :
    (∀ (fuel : Nat) (bp : Str) (fs : FS) (q : Str) (v : List Str),
      q ∉ v → readFileFS fs q = none →
      runPack (fuel + 1) bp fs q v = .ok fs [.readErr q] (some (readFailMsg q))) ∧
    (∀ q : Str, ∃ a b, readFailMsg q = a ++ q ++ b) ∧
    (∀ (rec : FS → Str → List Str → RRes) (fs : FS) (bp conv : Str) (v : List Str)
      (tr : List Ev) (content stmt : Str) (fs2 : FS) (tr2 : List Ev) (e : Option Str),
      fileExists fs (rewriteTarget conv stmt) = true →
      rec fs (rewriteTarget conv stmt) (v ++ [conv]) = .ok fs2 tr2 e →
      processStmt rec fs bp conv v tr content stmt =
        afterLocal bp conv content stmt (stmtPath stmt) fs2 (v ++ [conv])
          (tr ++ [.foundLocal (rewriteTarget conv stmt) conv] ++ tr2) (stmtPath stmt)) ∧
    (∀ (fuel : Nat) (bp : Str) (fs : FS) (conv : Str) (v : List Str)
      (c0 : Str) (fs2 : FS) (c2 : Str) (v2 : List Str) (tr2 : List Ev),
      conv ∉ v → readFileFS fs conv = some c0 →
      ((findStaticImports (applyDynamicFix c0) ++ findStaticExports (applyDynamicFix c0)).foldl
        (stepStmt (runPack fuel bp) bp conv)
        (.ok fs (applyDynamicFix c0) v [.visit conv]) = .ok fs2 c2 v2 tr2) →
      runPack (fuel + 1) bp fs conv v = .ok (writeFileFS fs2 conv c2) tr2 none) := by
  refine ⟨?_, ?_, ?_, ?_⟩
  · intro fuel bp fs q v hguard hread
    rw [runPack_succ]
    simp only [runPackF]
    rw [if_neg hguard, hread]
  · intro q
    exact ⟨("Could not read file ").toList, (" to convert to esm").toList, rfl⟩
  · intro rec fs bp conv v tr content stmt fs2 tr2 e hex hrec
    simp only [processStmt, hex, if_true, hrec]
  · intro fuel bp fs conv v c0 fs2 c2 v2 tr2 hguard hread hfold
    rw [runPack_succ]
    simp only [runPackF]
    rw [if_neg hguard, hread]
    simp only [hfold]

/-- Witness for C5: (1) reading the missing module "x" fails and returns
the read error leaving the filesystem untouched; (2) the message names the
path; (3) in a concrete filesystem where `main.js` imports the existing
directory `./d`, the child read failure (an error value) does not stop the
caller's statement processing; (4) a module with no statements is still
written back. -/
theorem c5_witness :
    runPack 1 pubP (FS.mk [] [] []) (("x").toList) [] =
      .ok (FS.mk [] [] []) [.readErr (("x").toList)] (some (readFailMsg (("x").toList))) ∧
    (∃ a b, readFailMsg (("x").toList) = a ++ (("x").toList) ++ b) ∧
    processStmt (runPack 2 pubP)
      (FS.mk [(mainP, ("import a from './d';\n").toList),
        ((("public/spa/ejected/d/x.txt").toList), [])] [] [])
      pubP mainP [] [] (("import a from './d';\n").toList)
      (("import a from './d';").toList) =
      afterLocal pubP mainP (("import a from './d';\n").toList)
        (("import a from './d';").toList)
        (stmtPath (("import a from './d';").toList))
        (FS.mk [(mainP, ("import a from './d';\n").toList),
          ((("public/spa/ejected/d/x.txt").toList), [])] [] [])
        [mainP]
        ([.foundLocal (rewriteTarget mainP (("import a from './d';").toList)) mainP] ++
          [.readErr (rewriteTarget mainP (("import a from './d';").toList))])
        (stmtPath (("import a from './d';").toList)) ∧
    runPack 1 pubP (FS.mk [((("p.js").toList), [])] [] []) (("p.js").toList) [] =
      .ok (writeFileFS (FS.mk [((("p.js").toList), [])] [] []) (("p.js").toList) [])
        [.visit (("p.js").toList)] none := by
  refine ⟨c5_read_failure_local.1 0 pubP _ _ [] (by decide) (by decide),
    c5_read_failure_local.2.1 _, ?_, ?_⟩
  · exact c5_read_failure_local.2.2.1 (runPack 2 pubP) _ pubP mainP [] [] _ _ _ _
      (some (readFailMsg (rewriteTarget mainP (("import a from './d';").toList))))
      (by decide) (by decide)
  · exact c5_read_failure_local.2.2.2 0 pubP _ _ [] [] _ [] [] [.visit (("p.js").toList)]
      (by decide) (by decide) (by decide)

theorem afterLocal_copyMod {bp conv content stmt ps : Str} {fsx : FS} {vx : List Str}
    {trx : List Ev} {f0 : Str} {fs' : FS} {c' : Str} {v' : List Str} {tr' : List Ev}
    (hne : ps ≠ []) (hdot : ps.headD ' ' ≠ '.') (hext : fpExt ps = [])
    (h : afterLocal bp conv content stmt ps fsx vx trx f0 = .ok fs' c' v' tr') :
    .copyMod ps ∈ tr' := by
  have hc : (decide (ps.headD ' ' ≠ '.') && decide (fpExt ps = [])) = true := by
    simp only [Bool.and_eq_true, decide_eq_true_eq]
    exact ⟨hdot, hext⟩
  rw [afterLocal, if_neg hne, if_pos hc] at h
  simp only [bareStep] at h
  cases hck : checkNpmPath (copyNpmModule fsx ps (bp ++ webModDir)) bp ps with
  | none =>
    simp only [hck] at h
    exact SRes.noConfusion h
  | some npm =>
    simp only [hck] at h
    cases hrel : filepathRel (pathDir conv) npm with
    | none =>
      simp only [hrel] at h
      obtain ⟨_, _, htr⟩ := finishStmt_ok h
      rcases htr with h' | h' <;> subst h' <;> simp
    | some rel =>
      simp only [hrel] at h
      obtain ⟨_, _, htr⟩ := finishStmt_ok h
      rcases htr with h' | h' <;> subst h' <;> simp

/-- C3 (amended): bare-package resolution (the Package Mirror Builder
and the Bare-Reference Resolver) is attempted for every static reference
whose extracted path string does not start with a dot and has no file
extension, regardless of whether the reference's computed relative
location exists on disk — the conditional of line 116 does not consult
the existence check of line 103, so a reference whose relative location
exists is resolved as a found local path AND additionally treated as a
bare package (whose result then overwrites the local one). -/
theorem c3_amended :
    ∀ (rec : FS → Str → List Str → RRes) (fs : FS) (bp conv : Str) (v : List Str)
      (tr : List Ev) (content stmt : Str) (fs' : FS) (c' : Str) (v' : List Str)
      (tr' : List Ev),
      stmtPath stmt ≠ [] →
      (stmtPath stmt).headD ' ' ≠ '.' →
      fpExt (stmtPath stmt) = [] →
      processStmt rec fs bp conv v tr content stmt = .ok fs' c' v' tr' →
      .copyMod (stmtPath stmt) ∈ tr' := by
  intro rec fs bp conv v tr content stmt fs' c' v' tr' hne hdot hext h
  simp only [processStmt] at h
  by_cases hex : fileExists fs (rewriteTarget conv stmt) = true
  · rw [if_pos hex] at h
    cases hrec : rec fs (rewriteTarget conv stmt) (v ++ [conv]) with
    | panicked =>
      simp only [hrec] at h
      exact SRes.noConfusion h
    | fuelOut =>
      simp only [hrec] at h
      exact SRes.noConfusion h
    | ok f2 t2 e2 =>
      simp only [hrec] at h
      exact afterLocal_copyMod hne hdot hext h
  · rw [if_neg hex] at h
    exact afterLocal_copyMod hne hdot hext h

/-- Witness for C3's amended claim: in a filesystem whose cache holds
`node_modules/lib/index.mjs`, processing the statement importing the bare
name "lib" completes normally and its trace records the Package Mirror
Builder invocation for "lib". -/
theorem c3_witness :
    .copyMod (("lib").toList) ∈
      ([Ev.copyMod (("lib").toList)] : List Ev) := by
  refine c3_amended (runPack 2 pubP)
    (FS.mk [(mainP, ("import l from 'lib';\n").toList),
      ((("node_modules/lib/index.mjs").toList), ("X").toList)] [] [])
    pubP mainP [] [] (("import l from 'lib';\n").toList)
    (("import l from 'lib';").toList)
    (FS.mk [(mainP, ("import l from 'lib';\n").toList),
      ((("node_modules/lib/index.mjs").toList), ("X").toList),
      ((("public/spa/web_modules/lib/index.mjs").toList), ("X").toList)]
      [(("public/spa/web_modules/lib").toList)] [])
    (("import l from '../web_modules/lib/index.mjs';\n").toList)
    [] [Ev.copyMod (("lib").toList)]
    (by decide) (by decide) (by decide) (by decide)

theorem foldl_lastMatch {α β : Type} (P : α → Bool) (f : α → β) :
    ∀ (l : List α) (a : β),
      l.foldl (fun acc x => if P x then f x else acc) a =
        ((l.reverse.find? P).map f).getD a := by
  intro l
  induction l using List.reverseRecOn with
  | nil => intro a; rfl
  | append_singleton l x ih =>
    intro a
    rw [List.foldl_append]
    simp only [List.foldl_cons, List.foldl_nil, List.reverse_append, List.reverse_cons,
      List.reverse_nil, List.nil_append, List.cons_append, List.find?]
    cases hP : P x with
    | true => simp
    | false => simpa using ih a

theorem walkFindJS_first (fs : FS) :
    ∀ l : List (Str × Bool),
      walkFindJS fs l =
        ((l.find? (fun e => e.2 && !(findJSFile fs e.1).isEmpty)).map
          (fun e => findJSFile fs e.1)).getD [] := by
  intro l
  induction l with
  | nil => rfl
  | cons e rest ih =>
    simp only [walkFindJS, List.find?]
    cases he : e.2 with
    | false => simpa [he] using ih
    | true =>
      by_cases hf : findJSFile fs e.1 = []
      · have hbe : (findJSFile fs e.1).isEmpty = true := by simp [List.isEmpty_iff, hf]
        simpa [he, hf, hbe] using ih
      · have hbe : (findJSFile fs e.1).isEmpty = false := by
          simp [List.isEmpty_iff, hf]
        simp [he, hf, hbe]

/-- C7: bare-reference resolution.  Part 1: `findJSFile` scans only the
given directory's sorted listing and returns the last entry whose name
carries a loadable extension (empty when there is none).  Part 2: when the
package's mirrored directory itself yields a loadable file, `checkNpmPath`
returns it without walking.  Part 3: when that level yields nothing and
the mirrored directory exists, the result is the walk over the pre-order
entry sequence (`nodesUnder`), which picks the first directory, in
depth-first pre-order, whose direct children yield a loadable file —
so a package with its only loadable file under `dist/` resolves to the
file under `dist/`.  Part 4: when no directory in the walk yields a
loadable file, the resolution returns the empty string. -/
theorem c7_bare_resolution :
    (∀ (fs : FS) (d : Str),
      findJSFile fs d =
        (((childEntries fs d).reverse.find?
            (fun e => decide (fpExt e.1 = jsLit) || decide (fpExt e.1 = mjsLit))).map
          (fun e => d ++ '/' :: e.1)).getD []) ∧
    (∀ (fs : FS) (bp pkg r : Str),
      findJSFile fs (bp ++ webModDir ++ '/' :: pkg) = r → r ≠ [] →
      checkNpmPath fs bp pkg = some r) ∧
    (∀ (fs : FS) (bp pkg : Str),
      findJSFile fs (bp ++ webModDir ++ '/' :: pkg) = [] →
      isDirFS fs (bp ++ webModDir ++ '/' :: pkg) = true →
      (bp ++ webModDir ++ '/' :: pkg) ∉ fs.errPaths →
      checkNpmPath fs bp pkg =
        some ((((nodesUnder fs (bp ++ webModDir ++ '/' :: pkg)).find?
            (fun e => e.2 && !(findJSFile fs e.1).isEmpty)).map
          (fun e => findJSFile fs e.1)).getD [])) ∧
    (∀ (fs : FS) (bp pkg : Str),
      findJSFile fs (bp ++ webModDir ++ '/' :: pkg) = [] →
      isDirFS fs (bp ++ webModDir ++ '/' :: pkg) = true →
      (bp ++ webModDir ++ '/' :: pkg) ∉ fs.errPaths →
      (∀ e ∈ nodesUnder fs (bp ++ webModDir ++ '/' :: pkg),
        e.2 = true → findJSFile fs e.1 = []) →
      checkNpmPath fs bp pkg = some []) := by
  have hwalk : ∀ (fs : FS) (bp pkg : Str),
      findJSFile fs (bp ++ webModDir ++ '/' :: pkg) = [] →
      isDirFS fs (bp ++ webModDir ++ '/' :: pkg) = true →
      (bp ++ webModDir ++ '/' :: pkg) ∉ fs.errPaths →
      checkNpmPath fs bp pkg =
        some (walkFindJS fs (nodesUnder fs (bp ++ webModDir ++ '/' :: pkg))) := by
    intro fs bp pkg hroot hdir herr
    simp only [checkNpmPath, hroot]
    rw [if_neg (by simp)]
    have hstat : walkList fs (bp ++ webModDir ++ '/' :: pkg) =
        .entries (nodesUnder fs (bp ++ webModDir ++ '/' :: pkg)) := by
      rw [walkList]
      cases hs : osStat fs (bp ++ webModDir ++ '/' :: pkg) with
      | file => rfl
      | dir => rfl
      | errNotExist =>
        exfalso
        rw [osStat] at hs
        rw [if_neg herr] at hs
        by_cases hl : (lookupFile fs (bp ++ webModDir ++ '/' :: pkg)).isSome
        · rw [if_pos hl] at hs; exact StatRes.noConfusion hs
        · rw [if_neg hl] at hs
          rw [if_pos hdir] at hs
          exact StatRes.noConfusion hs
      | errOther =>
        exfalso
        rw [osStat] at hs
        rw [if_neg herr] at hs
        by_cases hl : (lookupFile fs (bp ++ webModDir ++ '/' :: pkg)).isSome
        · rw [if_pos hl] at hs; exact StatRes.noConfusion hs
        · rw [if_neg hl] at hs
          rw [if_pos hdir] at hs
          exact StatRes.noConfusion hs
    rw [hstat]
  refine ⟨?_, ?_, ?_, ?_⟩
  · intro fs d
    rw [findJSFile]
    exact foldl_lastMatch (fun e => decide (fpExt e.1 = jsLit) || decide (fpExt e.1 = mjsLit))
      (fun e => d ++ '/' :: e.1) (childEntries fs d) []
  · intro fs bp pkg r hroot hne
    simp only [checkNpmPath, hroot]
    rw [if_pos (by simpa using hne)]
  · intro fs bp pkg hroot hdir herr
    rw [hwalk fs bp pkg hroot hdir herr, walkFindJS_first]
  · intro fs bp pkg hroot hdir herr hnone
    rw [hwalk fs bp pkg hroot hdir herr, walkFindJS_first]
    have : (nodesUnder fs (bp ++ webModDir ++ '/' :: pkg)).find?
        (fun e => e.2 && !(findJSFile fs e.1).isEmpty) = none := by
      rw [List.find?_eq_none]
      intro e he
      cases h2 : e.2 with
      | false => simp
      | true => simp [hnone e he h2, List.isEmpty_iff]
    rw [this]
    rfl

/-- Witness for C7: with several loadable files at the package root the
last one in listing order (`c.js`) wins and is returned without walking;
a package whose only loadable file sits under `dist/` resolves to the
file under `dist/`; a package with no loadable file anywhere resolves to
the empty string. -/
theorem c7_witness :
    findJSFile fsC7b (("public/spa/web_modules/pk").toList) =
      (("public/spa/web_modules/pk/c.js").toList) ∧
    checkNpmPath fsC7b pubP (("pk").toList) =
      some (("public/spa/web_modules/pk/c.js").toList) ∧
    checkNpmPath fsC7 pubP (("pk").toList) =
      some (("public/spa/web_modules/pk/dist/index.mjs").toList) ∧
    checkNpmPath fsC7c pubP (("pk").toList) = some [] := by
  refine ⟨?_, ?_, ?_, ?_⟩
  · have h := c7_bare_resolution.1 fsC7b (("public/spa/web_modules/pk").toList)
    rw [h]
    decide
  · exact c7_bare_resolution.2.1 fsC7b pubP (("pk").toList)
      (("public/spa/web_modules/pk/c.js").toList) (by decide) (by decide)
  · have h := c7_bare_resolution.2.2.1 fsC7 pubP (("pk").toList)
      (by decide) (by decide) (by decide)
    rw [h]
    decide
  · exact c7_bare_resolution.2.2.2 fsC7c pubP (("pk").toList)
      (by decide) (by decide) (by decide) (by decide)

/-- C4 (amended): materialization copies exactly the non-directory
dependency-cache entries whose extension is ".mjs" (the secondary
module-file extension), byte-for-byte, to the same relative position under
the mirror root; every file with any other extension — including the
plain ".js" script extension that resolution recognises — is skipped, so
the mirror tree is a strict filtered subset of the cache.  Part 1: every
readable non-directory ".mjs" entry at or under the package's cache
directory appears at its mirror position with identical content.  Part 2:
any path that is not the mirror position of such an ".mjs" entry keeps its
previous content (so nothing else is created or changed). -/
theorem c4_amended :
    ∀ (fs : FS) (pkg gdir : Str),
      ¬ gdir <+: nmLit → ¬ nmLit <+: gdir →
      (nmLit ++ '/' :: pkg) ∉ fs.errPaths →
      ((∀ p c, lookupFile fs p = some c →
          underRootB (nmLit ++ '/' :: pkg) p = true →
          isDirFS fs p = false → fpExt p = mjsLit →
          lookupFile (copyNpmModule fs pkg gdir) (mirrorName gdir p) = some c) ∧
        (∀ q, (∀ p, p ∈ fileKeys fs → cacheSrc fs (nmLit ++ '/' :: pkg) p = true →
            mirrorName gdir p ≠ q) →
          lookupFile (copyNpmModule fs pkg gdir) q = lookupFile fs q)) := by
  intro fs pkg gdir h1 h2 herr
  have hg := nm_not_pfx_of_sep h1 h2
  constructor
  · intro p c hl hu hd hext
    have hpk : p ∈ fileKeys fs := lookupL_mem hl
    have hroot : walkList fs (nmLit ++ '/' :: pkg) =
        .entries (nodesUnder fs (nmLit ++ '/' :: pkg)) := by
      rw [walkList]
      have hstat : osStat fs (nmLit ++ '/' :: pkg) = .file ∨
          osStat fs (nmLit ++ '/' :: pkg) = .dir := by
        rw [osStat, if_neg herr]
        by_cases hlk : (lookupFile fs (nmLit ++ '/' :: pkg)).isSome = true
        · rw [if_pos hlk]
          exact Or.inl rfl
        · rw [if_neg hlk]
          rw [underRootB, Bool.or_eq_true, decide_eq_true_eq] at hu
          rcases hu with hpq | hpfx
          · exfalso
            apply hlk
            subst hpq
            rw [hl]
            rfl
          · have hdir : isDirFS fs (nmLit ++ '/' :: pkg) = true := by
              rw [isDirFS, Bool.or_eq_true]
              right
              rw [List.any_eq_true]
              exact ⟨p, hpk, hpfx⟩
            rw [if_pos hdir]
            exact Or.inr rfl
      rcases hstat with h | h <;> rw [h]
    rw [copyNpmModule, hroot]
    refine copyFold_writes gdir hg _ fs p c (nodesUnder_firsts_nodup fs _)
      (fun e he => underRootNm (mem_nodesUnder he).2) ?_ hext hl
    have hmem := under_mem_nodes (List.mem_append_left fs.dirs hpk) hu
    rw [hd] at hmem
    exact hmem
  · intro q hq
    rw [copyNpmModule]
    cases hw : walkList fs (nmLit ++ '/' :: pkg) with
    | rootErr => rfl
    | entries l =>
      have hle : l = nodesUnder fs (nmLit ++ '/' :: pkg) := by
        rw [walkList] at hw
        revert hw
        cases osStat fs (nmLit ++ '/' :: pkg) with
        | file => intro hw; injection hw with h; exact h.symm
        | dir => intro hw; injection hw with h; exact h.symm
        | errNotExist => intro hw; exact WalkRes.noConfusion hw
        | errOther => intro hw; exact WalkRes.noConfusion hw
      subst hle
      exact copyFold_frame gdir fs (nmLit ++ '/' :: pkg) hg _ fs q (fun _ _ => rfl)
        (fun e he => ⟨(mem_nodesUnder he).1, (mem_nodesUnder he).2,
          underRootNm (mem_nodesUnder he).2⟩) hq

/-- Witness for C4's amended claim: the ".mjs" cache file of `fsC4w` is
mirrored byte-for-byte, while the mirror position of the non-loadable
"readme.txt" stays untouched (absent). -/
theorem c4_witness :
    lookupFile (copyNpmModule fsC4w (("pkg").toList) (("public/spa/web_modules").toList))
      (mirrorName (("public/spa/web_modules").toList)
        (("node_modules/pkg/index.mjs").toList)) = some (("M").toList) ∧
    lookupFile (copyNpmModule fsC4w (("pkg").toList) (("public/spa/web_modules").toList))
      (("public/spa/web_modules/pkg/readme.txt").toList) =
      lookupFile fsC4w (("public/spa/web_modules/pkg/readme.txt").toList) := by
  refine ⟨(c4_amended fsC4w (("pkg").toList) (("public/spa/web_modules").toList)
      (by decide) (by decide) (by decide)).1 _ _ (by decide) (by decide) (by decide) (by decide),
    (c4_amended fsC4w (("pkg").toList) (("public/spa/web_modules").toList)
      (by decide) (by decide) (by decide)).2 _ (by decide)⟩

theorem fileKeys_map_replace (l : List (Str × Str)) (p c : Str) :
    (l.map (fun e => if e.1 = p then (p, c) else e)).map Prod.fst = l.map Prod.fst := by
  induction l with
  | nil => rfl
  | cons e rest ih =>
    simp only [List.map_cons]
    by_cases he : e.1 = p
    · rw [if_pos he, ih, he]
    · rw [if_neg he, ih]

theorem fileKeys_write (fs : FS) (p c : Str) :
    fileKeys (writeFileFS fs p c) = fileKeys fs := fileKeys_map_replace fs.files p c

theorem fileKeys_mkdir (fs : FS) (d : Str) : fileKeys (mkdirAll fs d) = fileKeys fs := by
  rw [mkdirAll]
  split <;> rfl

theorem univSet_eq_of_keys {fs1 fs2 : FS} (bp : Str)
    (h : fileKeys fs1 = fileKeys fs2) : univSet bp fs1 = univSet bp fs2 := by
  rw [univSet, univSet, h]

theorem univSet_write (bp : Str) (fs : FS) (p c : Str) :
    univSet bp (writeFileFS fs p c) = univSet bp fs :=
  univSet_eq_of_keys bp (fileKeys_write fs p c)

theorem univSet_mkdir (bp : Str) (fs : FS) (d : Str) :
    univSet bp (mkdirAll fs d) = univSet bp fs :=
  univSet_eq_of_keys bp (fileKeys_mkdir fs d)

theorem univSet_create_new {bp : Str} {fs : FS} {p : Str} (c : Str)
    (hnm : nmLit.isPrefixOf p = false) (hp : p ∈ univSet bp fs) :
    univSet bp (createFileFS fs p c) = univSet bp fs := by
  rw [createFileFS]
  by_cases hs : (lookupFile fs p).isSome = true
  · rw [if_pos hs]
    exact univSet_eq_of_keys bp (fileKeys_map_replace fs.files p c)
  · rw [if_neg hs]
    have hk : fileKeys { fs with files := fs.files ++ [(p, c)] } = fileKeys fs ++ [p] := by
      simp [fileKeys]
    have hstep : univSet bp { fs with files := fs.files ++ [(p, c)] } =
        (univKeys bp (fileKeys fs ++ [p])).toFinset := by
      rw [univSet, hk]
    have hfp : (fileKeys fs ++ [p]).filterMap
        (fun k => if nmLit.isPrefixOf k then some (mirrorName (bp ++ webModDir) k) else none) =
        (fileKeys fs).filterMap
        (fun k => if nmLit.isPrefixOf k then some (mirrorName (bp ++ webModDir) k) else none) := by
      have hnm' : ¬ nmLit <+: p := by
        rw [← isPfxOf_iff _ _]
        simp [hnm]
      rw [List.filterMap_append]
      simp [hnm']
    rw [hstep, univKeys, hfp]
    apply Finset.ext
    intro x
    simp only [univSet, univKeys, List.mem_toFinset, List.mem_append,
      List.mem_singleton] at hp ⊢
    constructor
    · rintro ((hx | hx) | hx)
      · exact Or.inl hx
      · subst hx
        exact hp
      · exact Or.inr hx
    · rintro (hx | hx)
      · exact Or.inl (Or.inl hx)
      · exact Or.inr hx

theorem mirror_mem_univ {bp : Str} {fs : FS} {k : Str} (hk : k ∈ fileKeys fs)
    (hnm : nmLit.isPrefixOf k = true) :
    mirrorName (bp ++ webModDir) k ∈ univSet bp fs := by
  rw [univSet]
  simp only [univKeys, List.mem_toFinset, List.mem_append, List.mem_filterMap]
  exact Or.inr ⟨k, hk, by rw [hnm]; rfl⟩

theorem univ_copyStep {bp : Str} (hg : ∀ t, nmLit.isPrefixOf ((bp ++ webModDir) ++ t) = false)
    (acc : FS) (e : Str × Bool) (hnm : nmLit.isPrefixOf e.1 = true) :
    univSet bp (copyStep (bp ++ webModDir) acc e) = univSet bp acc := by
  rw [copyStep]
  by_cases hcond : (!e.2 && decide (fpExt e.1 = mjsLit)) = true
  · rw [if_pos hcond]
    cases hlk : lookupFile acc e.1 with
    | none => rfl
    | some content =>
      have hkm : e.1 ∈ fileKeys acc := lookupL_mem hlk
      have hmem : mirrorName (bp ++ webModDir) e.1 ∈ univSet bp (mkdirAll acc
          (pathDir (mirrorName (bp ++ webModDir) e.1))) := by
        rw [univSet_mkdir]
        exact mirror_mem_univ hkm hnm
      rw [univSet_create_new content (by rw [mirrorName]; exact hg _) hmem, univSet_mkdir]
  · rw [if_neg hcond]

theorem univ_copyFold {bp : Str} (hg : ∀ t, nmLit.isPrefixOf ((bp ++ webModDir) ++ t) = false) :
    ∀ (l : List (Str × Bool)) (acc : FS), (∀ e ∈ l, nmLit.isPrefixOf e.1 = true) →
      univSet bp (l.foldl (copyStep (bp ++ webModDir)) acc) = univSet bp acc := by
  intro l
  induction l with
  | nil => intro acc _; rfl
  | cons e rest ih =>
    intro acc hall
    rw [List.foldl_cons, ih (copyStep (bp ++ webModDir) acc e) (fun x hx => hall x (by simp [hx])),
      univ_copyStep hg acc e (hall e (by simp))]

theorem univ_copyNpm {bp : Str} (hg : ∀ t, nmLit.isPrefixOf ((bp ++ webModDir) ++ t) = false)
    (fs : FS) (ps : Str) :
    univSet bp (copyNpmModule fs ps (bp ++ webModDir)) = univSet bp fs := by
  rw [copyNpmModule]
  cases hw : walkList fs (nmLit ++ '/' :: ps) with
  | rootErr => rfl
  | entries l =>
    have hle : l = nodesUnder fs (nmLit ++ '/' :: ps) := by
      rw [walkList] at hw
      revert hw
      cases osStat fs (nmLit ++ '/' :: ps) with
      | file => intro hw; injection hw with h; exact h.symm
      | dir => intro hw; injection hw with h; exact h.symm
      | errNotExist => intro hw; exact WalkRes.noConfusion hw
      | errOther => intro hw; exact WalkRes.noConfusion hw
    subst hle
    exact univ_copyFold hg _ fs (fun e he => underRootNm (mem_nodesUnder he).2)

theorem univ_bareStep {bp : Str} (hg : ∀ t, nmLit.isPrefixOf ((bp ++ webModDir) ++ t) = false)
    {fs : FS} {conv : Str} {v : List Str} {tr : List Ev} {content stmt ps : Str}
    {fs' : FS} {c' : Str} {v' : List Str} {tr' : List Ev}
    (h : bareStep fs bp conv v tr content stmt ps = .ok fs' c' v' tr') :
    univSet bp fs' = univSet bp fs := by
  simp only [bareStep] at h
  cases hck : checkNpmPath (copyNpmModule fs ps (bp ++ webModDir)) bp ps with
  | none =>
    simp only [hck] at h
    exact SRes.noConfusion h
  | some npm =>
    simp only [hck] at h
    cases hrel : filepathRel (pathDir conv) npm with
    | none =>
      simp only [hrel] at h
      rw [(finishStmt_ok h).1, univ_copyNpm hg]
    | some rel =>
      simp only [hrel] at h
      rw [(finishStmt_ok h).1, univ_copyNpm hg]

theorem univ_afterLocal {bp : Str} (hg : ∀ t, nmLit.isPrefixOf ((bp ++ webModDir) ++ t) = false)
    {conv content stmt ps : Str} {fsx : FS} {vx : List Str} {trx : List Ev} {f0 : Str}
    {fs' : FS} {c' : Str} {v' : List Str} {tr' : List Ev}
    (h : afterLocal bp conv content stmt ps fsx vx trx f0 = .ok fs' c' v' tr') :
    univSet bp fs' = univSet bp fsx := by
  rw [afterLocal] at h
  by_cases hne : ps = []
  · rw [if_pos hne] at h
    exact SRes.noConfusion h
  · rw [if_neg hne] at h
    by_cases hc : (decide (ps.headD ' ' ≠ '.') && decide (fpExt ps = [])) = true
    · rw [if_pos hc] at h
      exact univ_bareStep hg h
    · rw [if_neg hc] at h
      rw [(finishStmt_ok h).1]

theorem afterLocal_visited {bp conv content stmt ps : Str} {fsx : FS} {vx : List Str}
    {trx : List Ev} {f0 : Str} {fs' : FS} {c' : Str} {v' : List Str} {tr' : List Ev}
    (h : afterLocal bp conv content stmt ps fsx vx trx f0 = .ok fs' c' v' tr') :
    v' = vx := by
  rw [afterLocal] at h
  by_cases hne : ps = []
  · rw [if_pos hne] at h
    exact SRes.noConfusion h
  · rw [if_neg hne] at h
    by_cases hc : (decide (ps.headD ' ' ≠ '.') && decide (fpExt ps = [])) = true
    · rw [if_pos hc] at h
      simp only [bareStep] at h
      cases hck : checkNpmPath (copyNpmModule fsx ps (bp ++ webModDir)) bp ps with
      | none =>
        simp only [hck] at h
        exact SRes.noConfusion h
      | some npm =>
        simp only [hck] at h
        cases hrel : filepathRel (pathDir conv) npm with
        | none =>
          simp only [hrel] at h
          exact (finishStmt_ok h).2.1
        | some rel =>
          simp only [hrel] at h
          exact (finishStmt_ok h).2.1
    · rw [if_neg hc] at h
      exact (finishStmt_ok h).2.1

theorem univ_processStmt {bp : Str} (hg : ∀ t, nmLit.isPrefixOf ((bp ++ webModDir) ++ t) = false)
    {rec : FS → Str → List Str → RRes}
    (hrec : ∀ fs1 p v1 fs1' tr1 e1, rec fs1 p v1 = .ok fs1' tr1 e1 →
      univSet bp fs1' = univSet bp fs1)
    {fs : FS} {conv : Str} {v : List Str} {tr : List Ev} {content stmt : Str}
    {fs' : FS} {c' : Str} {v' : List Str} {tr' : List Ev}
    (h : processStmt rec fs bp conv v tr content stmt = .ok fs' c' v' tr') :
    univSet bp fs' = univSet bp fs := by
  simp only [processStmt] at h
  by_cases hex : fileExists fs (rewriteTarget conv stmt) = true
  · rw [if_pos hex] at h
    cases hrec' : rec fs (rewriteTarget conv stmt) (v ++ [conv]) with
    | panicked =>
      simp only [hrec'] at h
      exact SRes.noConfusion h
    | fuelOut =>
      simp only [hrec'] at h
      exact SRes.noConfusion h
    | ok f2 t2 e2 =>
      simp only [hrec'] at h
      rw [univ_afterLocal hg h]
      exact hrec fs (rewriteTarget conv stmt) (v ++ [conv]) f2 t2 e2 hrec'
  · rw [if_neg hex] at h
    exact univ_afterLocal hg h

theorem processStmt_visited {rec : FS → Str → List Str → RRes}
    {fs : FS} {bp conv : Str} {v : List Str} {tr : List Ev} {content stmt : Str}
    {fs' : FS} {c' : Str} {v' : List Str} {tr' : List Ev}
    (h : processStmt rec fs bp conv v tr content stmt = .ok fs' c' v' tr') :
    v' = v ∨ v' = v ++ [conv] := by
  simp only [processStmt] at h
  by_cases hex : fileExists fs (rewriteTarget conv stmt) = true
  · rw [if_pos hex] at h
    cases hrec' : rec fs (rewriteTarget conv stmt) (v ++ [conv]) with
    | panicked =>
      simp only [hrec'] at h
      exact SRes.noConfusion h
    | fuelOut =>
      simp only [hrec'] at h
      exact SRes.noConfusion h
    | ok f2 t2 e2 =>
      simp only [hrec'] at h
      exact Or.inr (afterLocal_visited h)
  · rw [if_neg hex] at h
    exact Or.inl (afterLocal_visited h)

theorem foldl_stepStmt_panic (rec : FS → Str → List Str → RRes) (bp conv : Str) :
    ∀ l : List Str, l.foldl (stepStmt rec bp conv) .panicked = .panicked := by
  intro l
  induction l with
  | nil => rfl
  | cons a b ih =>
    rw [List.foldl_cons]
    exact ih

theorem foldl_stepStmt_fuelOut (rec : FS → Str → List Str → RRes) (bp conv : Str) :
    ∀ l : List Str, l.foldl (stepStmt rec bp conv) .fuelOut = .fuelOut := by
  intro l
  induction l with
  | nil => rfl
  | cons a b ih =>
    rw [List.foldl_cons]
    exact ih

theorem univ_fold {bp : Str} (hg : ∀ t, nmLit.isPrefixOf ((bp ++ webModDir) ++ t) = false)
    {rec : FS → Str → List Str → RRes}
    (hrec : ∀ fs1 p v1 fs1' tr1 e1, rec fs1 p v1 = .ok fs1' tr1 e1 →
      univSet bp fs1' = univSet bp fs1) (conv : Str) :
    ∀ (stmts : List Str) (fs : FS) (content : Str) (v : List Str) (tr : List Ev)
      (fs2 : FS) (c2 : Str) (v2 : List Str) (tr2 : List Ev),
      stmts.foldl (stepStmt rec bp conv) (.ok fs content v tr) = .ok fs2 c2 v2 tr2 →
      univSet bp fs2 = univSet bp fs := by
  intro stmts
  induction stmts with
  | nil =>
    intro fs content v tr fs2 c2 v2 tr2 h
    rw [List.foldl_nil] at h
    injection h with h1 _ _ _
    rw [h1]
  | cons s rest ih =>
    intro fs content v tr fs2 c2 v2 tr2 h
    rw [List.foldl_cons] at h
    cases hstep : processStmt rec fs bp conv v tr content s with
    | panicked =>
      rw [show stepStmt rec bp conv (.ok fs content v tr) s =
        processStmt rec fs bp conv v tr content s from rfl, hstep,
        foldl_stepStmt_panic rec bp conv rest] at h
      exact SRes.noConfusion h
    | fuelOut =>
      rw [show stepStmt rec bp conv (.ok fs content v tr) s =
        processStmt rec fs bp conv v tr content s from rfl, hstep,
        foldl_stepStmt_fuelOut rec bp conv rest] at h
      exact SRes.noConfusion h
    | ok f2 cc2 vv2 tt2 =>
      rw [show stepStmt rec bp conv (.ok fs content v tr) s =
        processStmt rec fs bp conv v tr content s from rfl, hstep] at h
      rw [ih f2 cc2 vv2 tt2 fs2 c2 v2 tr2 h, univ_processStmt hg hrec hstep]

theorem univ_run {bp : Str} (hg : ∀ t, nmLit.isPrefixOf ((bp ++ webModDir) ++ t) = false) :
    ∀ (fuel : Nat) (fs : FS) (conv : Str) (v : List Str) (fs' : FS) (tr : List Ev)
      (e : Option Str),
      runPack fuel bp fs conv v = .ok fs' tr e → univSet bp fs' = univSet bp fs := by
  intro fuel
  induction fuel with
  | zero =>
    intro fs conv v fs' tr e h
    exact RRes.noConfusion h
  | succ n ih =>
    intro fs conv v fs' tr e h
    rw [runPack_succ, runPackF] at h
    by_cases hv : conv ∈ v
    · rw [if_pos hv] at h
      injection h with h1 _ _
      rw [h1]
    · rw [if_neg hv] at h
      cases hr : readFileFS fs conv with
      | none =>
        simp only [hr] at h
        injection h with h1 _ _
        rw [h1]
      | some content0 =>
        simp only [hr] at h
        cases hf : (findStaticImports (applyDynamicFix content0) ++
            findStaticExports (applyDynamicFix content0)).foldl
            (stepStmt (runPack n bp) bp conv)
            (.ok fs (applyDynamicFix content0) v [.visit conv]) with
        | panicked =>
          simp only [hf] at h
          exact RRes.noConfusion h
        | fuelOut =>
          simp only [hf] at h
          exact RRes.noConfusion h
        | ok fs2 c2 v2 tr2 =>
          simp only [hf] at h
          injection h with h1 _ _
          rw [← h1, univSet_write,
            univ_fold hg (fun fs1 p v1 fs1' tr1 e1 hh => ih fs1 p v1 fs1' tr1 e1 hh) conv
              _ fs (applyDynamicFix content0) v [.visit conv] fs2 c2 v2 tr2 hf]

theorem finishStmt_no_fuelOut {fs : FS} {bp conv : Str} {v : List Str} {tr : List Ev}
    {content stmt fp : Str} :
    finishStmt fs bp conv v tr content stmt fp ≠ .fuelOut := by
  intro hh
  by_cases hfp : fp = []
  · rw [finishStmt, if_pos hfp] at hh
    exact SRes.noConfusion hh
  · rw [finishStmt, if_neg hfp] at hh
    exact SRes.noConfusion hh

theorem afterLocal_no_fuelOut {bp conv content stmt ps : Str} {fsx : FS} {vx : List Str}
    {trx : List Ev} {f0 : Str} :
    afterLocal bp conv content stmt ps fsx vx trx f0 ≠ .fuelOut := by
  intro hh
  rw [afterLocal] at hh
  by_cases hne : ps = []
  · rw [if_pos hne] at hh
    exact SRes.noConfusion hh
  · rw [if_neg hne] at hh
    by_cases hc : (decide (ps.headD ' ' ≠ '.') && decide (fpExt ps = [])) = true
    · rw [if_pos hc] at hh
      simp only [bareStep] at hh
      cases hck : checkNpmPath (copyNpmModule fsx ps (bp ++ webModDir)) bp ps with
      | none =>
        simp only [hck] at hh
        exact SRes.noConfusion hh
      | some npm =>
        simp only [hck] at hh
        cases hrel : filepathRel (pathDir conv) npm with
        | none =>
          simp only [hrel] at hh
          exact finishStmt_no_fuelOut hh
        | some rel =>
          simp only [hrel] at hh
          exact finishStmt_no_fuelOut hh
    · rw [if_neg hc] at hh
      exact finishStmt_no_fuelOut hh

theorem processStmt_no_fuelOut {rec : FS → Str → List Str → RRes}
    {fs : FS} {bp conv : Str} {v : List Str} {tr : List Ev} {content stmt : Str}
    (hnf : rec fs (rewriteTarget conv stmt) (v ++ [conv]) ≠ .fuelOut) :
    processStmt rec fs bp conv v tr content stmt ≠ .fuelOut := by
  simp only [processStmt]
  by_cases hex : fileExists fs (rewriteTarget conv stmt) = true
  · rw [if_pos hex]
    cases hrec' : rec fs (rewriteTarget conv stmt) (v ++ [conv]) with
    | panicked => exact fun hh => SRes.noConfusion hh
    | fuelOut => exact absurd hrec' hnf
    | ok f2 t2 e2 => exact afterLocal_no_fuelOut
  · rw [if_neg hex]
    exact afterLocal_no_fuelOut

theorem measure_step {U : Finset Str} {v0 va : List Str} {conv : Str} {fuel : Nat}
    (hconvU : conv ∈ U) (hconvV : conv ∉ v0)
    (hsub : v0.toFinset ⊆ va.toFinset)
    (hbound : (U \ v0.toFinset).card < fuel + 1) :
    (U \ (va ++ [conv]).toFinset).card < fuel := by
  have h1 : (U \ (va ++ [conv]).toFinset) ⊆ (U \ (v0.toFinset ∪ {conv})) := by
    apply Finset.sdiff_subset_sdiff (Finset.Subset.refl U)
    intro x hx
    rw [Finset.mem_union, Finset.mem_singleton] at hx
    rw [List.toFinset_append, Finset.mem_union]
    rcases hx with hx | hx
    · exact Or.inl (hsub hx)
    · subst hx
      right
      simp
  have h2 : U \ (v0.toFinset ∪ {conv}) = (U \ v0.toFinset).erase conv := by
    ext x
    simp only [Finset.mem_sdiff, Finset.mem_erase, Finset.mem_union, Finset.mem_singleton]
    tauto
  have h3 : conv ∈ U \ v0.toFinset := by
    rw [Finset.mem_sdiff]
    exact ⟨hconvU, by simpa using hconvV⟩
  have h4 := Finset.card_le_card h1
  rw [h2, Finset.card_erase_of_mem h3] at h4
  have h5 : 1 ≤ (U \ v0.toFinset).card := Finset.card_pos.mpr ⟨conv, h3⟩
  omega

theorem fold_no_fuelOut {bp : Str}
    (hg : ∀ t, nmLit.isPrefixOf ((bp ++ webModDir) ++ t) = false)
    (fuel : Nat) (conv : Str) (U : Finset Str) (v0 : List Str)
    (hconvU : conv ∈ U) (hconvV : conv ∉ v0)
    (hIH : ∀ (fs1 : FS) (p : Str) (v1 : List Str),
      (univSet bp fs1 \ v1.toFinset).card < fuel → runPack fuel bp fs1 p v1 ≠ .fuelOut)
    (hbound : (U \ v0.toFinset).card < fuel + 1) :
    ∀ (stmts : List Str) (fsa : FS) (ca : Str) (va : List Str) (tra : List Ev),
      univSet bp fsa = U → v0.toFinset ⊆ va.toFinset →
      stmts.foldl (stepStmt (runPack fuel bp) bp conv) (.ok fsa ca va tra) ≠ .fuelOut := by
  intro stmts
  induction stmts with
  | nil =>
    intro fsa ca va tra _ _ hh
    exact SRes.noConfusion hh
  | cons s rest ih =>
    intro fsa ca va tra hU hsub
    rw [List.foldl_cons,
      show stepStmt (runPack fuel bp) bp conv (.ok fsa ca va tra) s =
        processStmt (runPack fuel bp) fsa bp conv va tra ca s from rfl]
    have hnf : runPack fuel bp fsa (rewriteTarget conv s) (va ++ [conv]) ≠ .fuelOut := by
      apply hIH
      rw [hU]
      exact measure_step hconvU hconvV hsub hbound
    cases hstep : processStmt (runPack fuel bp) fsa bp conv va tra ca s with
    | panicked =>
      rw [foldl_stepStmt_panic]
      exact fun hh => SRes.noConfusion hh
    | fuelOut => exact absurd hstep (processStmt_no_fuelOut hnf)
    | ok fs' c' v' tr' =>
      apply ih fs' c' v' tr'
      · rw [univ_processStmt hg
          (fun fs1 p v1 fs1' tr1 e1 hok => univ_run hg fuel fs1 p v1 fs1' tr1 e1 hok) hstep, hU]
      · rcases processStmt_visited hstep with hv | hv
        · rw [hv]
          exact hsub
        · rw [hv]
          intro x hx
          rw [List.toFinset_append, Finset.mem_union]
          exact Or.inl (hsub hx)

theorem runPack_no_fuelOut {bp : Str}
    (hg : ∀ t, nmLit.isPrefixOf ((bp ++ webModDir) ++ t) = false) :
    ∀ (fuel : Nat) (fs : FS) (conv : Str) (v : List Str),
      (univSet bp fs \ v.toFinset).card < fuel →
      runPack fuel bp fs conv v ≠ .fuelOut := by
  intro fuel
  induction fuel with
  | zero =>
    intro fs conv v hb
    exact absurd hb (Nat.not_lt_zero _)
  | succ n ih =>
    intro fs conv v hb hh
    rw [runPack_succ, runPackF] at hh
    by_cases hv : conv ∈ v
    · rw [if_pos hv] at hh
      exact RRes.noConfusion hh
    · rw [if_neg hv] at hh
      cases hr : readFileFS fs conv with
      | none =>
        simp only [hr] at hh
        exact RRes.noConfusion hh
      | some c0 =>
        simp only [hr] at hh
        have hcU : conv ∈ univSet bp fs := by
          rw [readFileFS] at hr
          by_cases hstat : osStat fs conv = .file
          · rw [if_pos hstat] at hr
            rw [univSet]
            simp only [univKeys, List.mem_toFinset, List.mem_append]
            exact Or.inl (lookupL_mem hr)
          · rw [if_neg hstat] at hr
            exact Option.noConfusion hr
        have hfold := fold_no_fuelOut hg n conv (univSet bp fs) v hcU hv ih hb
          (findStaticImports (applyDynamicFix c0) ++ findStaticExports (applyDynamicFix c0))
          fs (applyDynamicFix c0) v [.visit conv] rfl (Finset.Subset.refl _)
        cases hf : (findStaticImports (applyDynamicFix c0) ++
            findStaticExports (applyDynamicFix c0)).foldl (stepStmt (runPack n bp) bp conv)
            (.ok fs (applyDynamicFix c0) v [.visit conv]) with
        | panicked =>
          simp only [hf] at hh
          exact RRes.noConfusion hh
        | fuelOut => exact hfold hf
        | ok a b c d =>
          simp only [hf] at hh
          exact RRes.noConfusion hh

/-- C1 (amended): re-encountering an already-visited module path returns
immediately without error and without touching the filesystem (part 1,
the guard of lines 53-61), and the traversal terminates: the recursion
never exhausts a fuel budget exceeding the number of not-yet-visited
candidate paths — the file paths plus the mirror positions the run can
create — so the Go recursion, whose depth this fuel bounds, is finite
(part 2; the two prefix side conditions say the mirror root is not inside
the dependency cache, as with any real build directory).  However, the
original claim's "a module is rewritten and recursed into at most once
per run" is false: the visited list records the referencing caller, not
the visited callee, so a module reachable through two different sibling
references is processed twice (see the counterexample). -/
theorem c1_amended :
    (∀ (fuel : Nat) (bp : Str) (fs : FS) (conv : Str) (v : List Str),
      conv ∈ v → runPack (fuel + 1) bp fs conv v = .ok fs [] none) ∧
    (∀ (fuel : Nat) (bp : Str) (fs : FS) (conv : Str) (v : List Str),
      ¬ (bp ++ webModDir) <+: nmLit → ¬ nmLit <+: (bp ++ webModDir) →
      visitBound bp fs v < fuel →
      runPack fuel bp fs conv v ≠ .fuelOut) := by
  constructor
  · intro fuel bp fs conv v h
    rw [runPack_succ, runPackF, if_pos h]
  · intro fuel bp fs conv v h1 h2 hb
    exact runPack_no_fuelOut (nm_not_pfx_of_sep h1 h2) fuel fs conv v hb

/-- Witness for C1's amended claim: a call on the already-visited entry
module returns immediately with the filesystem unchanged and no error,
and the run over the two-module fixture `fsC1` does not exhaust a fuel
budget of 9 (which exceeds its two not-yet-visited paths). -/
theorem c1_witness :
    runPack 1 pubP fsC1 mainP [mainP] = .ok fsC1 [] none ∧
    runPack 9 pubP fsC1 mainP [] ≠ .fuelOut :=
  ⟨c1_amended.1 0 pubP fsC1 mainP [mainP] (by decide),
    c1_amended.2 9 pubP fsC1 mainP [] (by decide) (by decide) (by decide)⟩

/-- C1 (counterexample): the claim that one top-level run visits, rewrites
and recurses into each module at most once is false: with the concrete
module graph `fsC1`, where `main.js` carries two static references that
both resolve to the existing sibling `b.js`, one run of `runPack` visits
(reads, processes and rewrites) `b.js` twice — the visited list of lines
53-61/109 records the referencing caller, never the visited callee. -/
theorem c1_counterexample :
    visitCount (runPack 6 pubP fsC1 mainP []) (("public/spa/ejected/b.js").toList) = 2 := by
  decide

/-- C2 (code bug): processing is not panic-free for every readable module.
The module text "import x from y;" is matched by `reStaticImportGoPk`
but contains no quoted path, so `rePath.Find` returns nil, the trimmed
path string is empty, and evaluating `pathStr[:1]` on line 116 is an
out-of-range slice — a runtime panic, not a local logged error. -/
theorem c2_panics_on_pathless_statement :
    runPack 6 pubP fsC2 mainP [] = .panicked := by decide

/-- C3 (counterexample): a static reference whose computed relative
location exists on disk can nevertheless additionally be treated as a bare
package: lines 103 and 116 are two independent conditionals, not an
if/else.  In `fsC3` the import of "lib" finds the existing sibling
directory `public/spa/ejected/lib` (local-path branch taken, recursion
attempted) and then still invokes the Package Mirror Builder for "lib". -/
theorem c3_counterexample :
    hasEv (runPack 6 pubP fsC3 mainP [])
      (.foundLocal (("public/spa/ejected/lib").toList) mainP) = true ∧
    hasEv (runPack 6 pubP fsC3 mainP []) (.copyMod (("lib").toList)) = true := by
  decide

/-- C4 (counterexample): materialization does not copy every cache entry
with one of the two recognized loadable extensions: line 223 tests
`filepath.Ext(modulePath) == ".mjs"` only, so the ".js" cache entry of
`fsC4` — whose extension is the ES-module-safe script extension checked by
`findJSFile` — is not copied to its mirror position. -/
theorem c4_counterexample :
    lookupFile fsC4 (("node_modules/pkg/index.js").toList) = some (("C").toList) ∧
    fpExt (("node_modules/pkg/index.js").toList) = jsLit ∧
    lookupFile (copyNpmModule fsC4 (("pkg").toList) (("public/spa/web_modules").toList))
      (mirrorName (("public/spa/web_modules").toList) (("node_modules/pkg/index.js").toList))
      = none := by
  decide

/-- C6 (code bug): an import of a package absent from the dependency cache
does not produce a preserved statement plus a logged warning — it panics.
`copyNpmModule` logs the failed cache walk and copies nothing, so the
package's mirror directory does not exist; the `filepath.WalkDir` inside
`checkNpmPath` then hands its callback a nil `DirEntry` with the root
error, and line 166 calls `IsDir()` on that nil interface. -/
theorem c6_panics_on_absent_package :
    runPack 6 pubP fsC6 mainP [] = .panicked := by decide

/-- C8: given `a/index.js` importing './b.svelte' with the compiled
sibling `b.js` present, processing rewrites the import path to './b.js'
(the ".svelte" extension becomes ".js" on lines 95-98, the location is
found on disk, and lines 128-137 substitute the resolved path back into
the statement), and the sibling still exists afterwards. -/
theorem c8_local_resolution :
    resultContent (runPack 6 pubP fsC8 (("public/spa/a/index.js").toList) [])
      (("public/spa/a/index.js").toList) = some (("import B from './b.js';\n").toList) ∧
    resultContent (runPack 6 pubP fsC8 (("public/spa/a/index.js").toList) [])
      (("public/spa/a/b.js").toList) = some [] := by decide

end Gopack
